import Mathlib

/-!
# Verification of the json-pack codecs against their specification

This file shallowly embeds the parts of the `json-pack` TypeScript library
that the checked claims are about — the Smile codec (`src/smile/util.ts`,
`SmileEncoderBase.ts`, `SmileDecoderBase.ts`, `constants.ts`), the partial
JSON decoder (`JsonDecoderPartial`), and the CBOR decoder
(`CborDecoder`: skipping, validation and path navigation) — and proves or
refutes each claim.

Conventions of the embedding:

* Byte buffers are `List Nat` with every element `< 256` (a `Uint8Array`).
* JavaScript numbers that the code uses as exact integers are `Int`; where
  the source applies JavaScript 32-bit bitwise operators (`>>`, `<<`, `&`,
  `|`), the embedding goes through an explicit `ToInt32` conversion exactly
  as ECMAScript does, so 32-bit truncation effects are preserved.
* Reader-style code is translated to functions consuming a `List Nat` and
  returning the unread suffix; failure is `Option`/`Except`.
* Recursive decoders whose loops advance the cursor by at least one byte per
  iteration are given an explicit fuel argument; callers pass
  `input.length + 1`, which the byte-consumption invariant makes sufficient,
  so the fuel-exhaustion branch is unreachable on the actual call paths.
-/

/-! ## JavaScript 32-bit arithmetic

ECMAScript bitwise operators convert their operands with `ToInt32` (take the
value mod 2^32, reinterpret as a signed 32-bit integer) and operate on the
32-bit patterns.  `>>` is an arithmetic (sign-extending) shift, which on the
two's-complement pattern is floor division by the power of two. -/

namespace JsBits

/-- The low 32 bits of an integer, as the `ToUint32` pattern. -/
def u32 (x : Int) : Nat := (x % (2 ^ 32 : Int)).toNat

/-- Reinterpret a 32-bit pattern as a signed 32-bit integer. -/
def asInt32 (p : Nat) : Int := if p % 2 ^ 32 < 2 ^ 31 then (p % 2 ^ 32 : Nat) else (p % 2 ^ 32 : Nat) - 2 ^ 32

/-- ECMAScript `ToInt32`. -/
def toInt32 (x : Int) : Int := asInt32 (u32 x)

/-- JavaScript `x >> k` (arithmetic shift right of the `ToInt32` pattern,
i.e. floor division of the signed 32-bit value by `2^k`). -/
def jsShr (x : Int) (k : Nat) : Int := Int.fdiv (toInt32 x) (2 ^ k)

/-- JavaScript `x & m` for a mask `0 ≤ m < 2^31`: the result is the
(non-negative) bitwise AND of the 32-bit pattern of `x` with `m`. -/
def jsAndNat (x : Int) (m : Nat) : Nat := u32 x &&& m

/-- JavaScript `x << k` followed by the implicit `ToInt32` of the result. -/
def jsShl (x : Int) (k : Nat) : Int := asInt32 (u32 x <<< k)

/-- JavaScript `x | m` for `0 ≤ m < 256` (the only use sites OR in a byte). -/
def jsOr (x : Int) (m : Nat) : Int := asInt32 (u32 x ||| m)

theorem u32_ofNat_lt {n : Nat} (h : n < 2 ^ 32) : u32 (n : Int) = n := by
  simp only [u32]
  omega

theorem asInt32_of_lt {p : Nat} (h : p < 2 ^ 31) : asInt32 p = (p : Int) := by
  simp only [asInt32]
  split <;> omega

theorem asInt32_le (p : Nat) : asInt32 p ≤ 2 ^ 31 - 1 := by
  simp only [asInt32]
  split <;> omega

theorem toInt32_of_lt {n : Nat} (h : n < 2 ^ 31) : toInt32 (n : Int) = (n : Int) := by
  rw [toInt32, u32_ofNat_lt (by omega), asInt32_of_lt h]

theorem jsShr_ediv (x : Int) (k : Nat) : jsShr x k = toInt32 x / 2 ^ k := by
  rw [jsShr, Int.fdiv_eq_ediv _ (by positivity)]

theorem jsShr_of_lt {n : Nat} (h : n < 2 ^ 31) (k : Nat) :
    jsShr (n : Int) k = ((n / 2 ^ k : Nat) : Int) := by
  rw [jsShr_ediv, toInt32_of_lt h, Int.ofNat_ediv]
  norm_cast

theorem jsAndNat_of_lt {n : Nat} (h : n < 2 ^ 32) (m : Nat) :
    jsAndNat (n : Int) m = n &&& m := by
  rw [jsAndNat, u32_ofNat_lt h]

end JsBits

/-! ## Smile: `util.ts` -/

namespace Smile

open JsBits

/-- `zigzagEncode` from `src/smile/util.ts`:
`value >= 0 ? value * 2 : (-value * 2) - 1`. -/
def zigzagEncode (value : Int) : Int := if 0 ≤ value then value * 2 else -value * 2 - 1

/-- `zigzagDecode` from `src/smile/util.ts`:
`(value & 1) === 0 ? value / 2 : -(value + 1) / 2` (the divisions are exact,
so JavaScript's real division agrees with integer division). -/
def zigzagDecode (value : Int) : Int :=
  if jsAndNat value 1 = 0 then value / 2 else -((value + 1) / 2)

/-- The loop `while (remaining > 0) { bytes.push(remaining & 0x7f); remaining >>= 7 }`
of `writeVInt`, with the subsequent reversed write-out folded in: the
most-significant 7-bit group is emitted first. -/
def vintCont (r : Int) : List Nat :=
  if h : 0 < r then vintCont (jsShr r 7) ++ [jsAndNat r 0x7f] else []
termination_by r.toNat
decreasing_by
  have hb : toInt32 r ≤ 2 ^ 31 - 1 := asInt32_le (u32 r)
  have hsh : jsShr r 7 = toInt32 r / 2 ^ 7 := jsShr_ediv r 7
  have ht : r < 2 ^ 31 → toInt32 r = r := by
    intro hr
    obtain ⟨n, rfl⟩ := Int.eq_ofNat_of_zero_le (le_of_lt h)
    exact toInt32_of_lt (by exact_mod_cast hr)
  omega

/-- `writeVInt` from `src/smile/util.ts`, as the byte list it writes.  The
source first collects the low six bits for the final byte, shifts right by 6,
pushes 7-bit groups least-significant first, then writes them in reverse
order and finally the terminator byte `0x80 | lastBits`. -/
def writeVIntBytes (value : Int) : List Nat :=
  if value = 0 then [0x80]
  else vintCont (jsShr value 6) ++ [0x80 ||| jsAndNat value 0x3f]

/-- The accumulation loop of `readVInt`, on the remaining input.  `result`
goes through JavaScript's 32-bit `<<` and `|`. -/
def readVIntLoop : Int → List Nat → Option (Int × List Nat)
  | _, [] => none
  | acc, b :: rest =>
    if b &&& 0x80 ≠ 0 then some (jsOr (jsShl acc 6) (b &&& 0x3f), rest)
    else readVIntLoop (jsOr (jsShl acc 7) (b &&& 0x7f)) rest

/-- `readVInt` from `src/smile/util.ts`, consuming from a byte list. -/
def readVIntBytes : List Nat → Option (Int × List Nat)
  | [] => none
  | b :: rest =>
    if b &&& 0x80 ≠ 0 then some (((b &&& 0x3f : Nat) : Int), rest)
    else readVIntLoop ((b &&& 0x7f : Nat) : Int) rest

/-- The value carried by a VInt byte list if read base-128 **big-endian**
(most-significant group first), the layout `writeVInt` actually produces:
continuation bytes contribute 7 bits, the final byte 6 bits. -/
def beVal : List Nat → Nat
  | [] => 0
  | [b] => b &&& 0x3f
  | b :: rest => (b &&& 0x7f) * 2 ^ (7 * (rest.length - 1) + 6) + beVal rest

/-- The value carried by a VInt byte list if read base-128 **little-endian**
(least-significant group first), the layout claimed by the specification:
the i-th byte contributes its payload bits scaled by `128^i`. -/
def leVal : List Nat → Nat
  | [] => 0
  | [b] => b &&& 0x3f
  | b :: rest => (b &&& 0x7f) + 128 * leVal rest

end Smile

/-! ### VInt round-trip machinery -/

namespace Smile

open JsBits

/-- Fuel-driven base-128 big-endian digit expansion; with fuel `≥ q` it
computes the digit list that `vintCont` produces on a non-negative in-range
argument (proved in `vintCont_eq_natCont`). -/
def natContF : Nat → Nat → List Nat
  | 0, _ => []
  | f + 1, q => if q = 0 then [] else natContF f (q / 128) ++ [q % 128]

/-- Structural-recursion companion of the `writeVInt` continuation loop. -/
def natCont (q : Nat) : List Nat := natContF q q

theorem natContF_zero (f : Nat) : natContF f 0 = [] := by
  cases f <;> rfl

theorem natContF_congr : ∀ (q f₁ f₂ : Nat), q ≤ f₁ → q ≤ f₂ →
    natContF f₁ q = natContF f₂ q := by
  intro q
  induction q using Nat.strong_induction_on with
  | _ q ih =>
    intro f₁ f₂ h₁ h₂
    by_cases hq : q = 0
    · subst hq; rw [natContF_zero, natContF_zero]
    · obtain ⟨g₁, rfl⟩ : ∃ g, f₁ = g + 1 := ⟨f₁ - 1, by omega⟩
      obtain ⟨g₂, rfl⟩ : ∃ g, f₂ = g + 1 := ⟨f₂ - 1, by omega⟩
      simp only [natContF, hq, if_false]
      have hdiv : q / 128 < q := Nat.div_lt_self (by omega) (by omega)
      rw [ih (q / 128) hdiv g₁ g₂ (by omega) (by omega)]

theorem natCont_pos (q : Nat) (h : 0 < q) :
    natCont q = natCont (q / 128) ++ [q % 128] := by
  obtain ⟨g, rfl⟩ : ∃ g, q = g + 1 := ⟨q - 1, by omega⟩
  show natContF (g + 1) (g + 1) = _
  simp only [natContF, Nat.succ_ne_zero, if_false]
  congr 1
  exact natContF_congr ((g + 1) / 128) g ((g + 1) / 128)
    (by have := Nat.div_lt_self (Nat.succ_pos g) (show 1 < 128 by omega); omega)
    (le_refl _)

theorem vintCont_eq_natCont (q : Nat) (hq : q < 2 ^ 31) :
    vintCont (q : Int) = natCont q := by
  induction q using Nat.strong_induction_on with
  | _ q ih =>
    by_cases h0 : q = 0
    · subst h0; rw [vintCont, natCont]; rfl
    · rw [vintCont]
      have hpos : (0 : Int) < (q : Nat) := by exact_mod_cast Nat.pos_of_ne_zero h0
      rw [dif_pos hpos]
      rw [jsShr_of_lt hq 7, jsAndNat_of_lt (by omega) 0x7f]
      have hmask : q &&& 0x7f = q % 128 := Nat.and_pow_two_sub_one_eq_mod q 7
      have hdivlt : q / 2 ^ 7 < q := Nat.div_lt_self (Nat.pos_of_ne_zero h0) (by omega)
      rw [hmask, ih (q / 2 ^ 7) hdivlt (by omega)]
      rw [natCont_pos q (Nat.pos_of_ne_zero h0)]
      norm_num

theorem natCont_digits {q : Nat} : ∀ d ∈ natCont q, d < 128 := by
  induction q using Nat.strong_induction_on with
  | _ q ih =>
    by_cases h0 : q = 0
    · subst h0; intro d hd; cases hd
    · rw [natCont_pos q (Nat.pos_of_ne_zero h0)]
      intro d hd
      rcases List.mem_append.mp hd with h | h
      · exact ih (q / 128) (Nat.div_lt_self (Nat.pos_of_ne_zero h0) (by omega)) d h
      · rcases List.mem_singleton.mp h with rfl
        exact Nat.mod_lt q (by omega)

/-- The big-endian digit accumulator used by `readVInt`'s continuation loop. -/
def digitsVal (acc : Nat) (ds : List Nat) : Nat :=
  List.foldl (fun a d => a * 128 + d) acc ds

theorem digitsVal_nil (acc : Nat) : digitsVal acc [] = acc := rfl

theorem digitsVal_cons (acc d : Nat) (ds : List Nat) :
    digitsVal acc (d :: ds) = digitsVal (acc * 128 + d) ds := rfl

theorem digitsVal_le (acc : Nat) (ds : List Nat) : acc ≤ digitsVal acc ds := by
  induction ds generalizing acc with
  | nil => exact le_refl _
  | cons d ds ih =>
    rw [digitsVal_cons]
    calc acc ≤ acc * 128 + d := by omega
      _ ≤ digitsVal (acc * 128 + d) ds := ih _

theorem digitsVal_natCont (q : Nat) : digitsVal 0 (natCont q) = q := by
  induction q using Nat.strong_induction_on with
  | _ q ih =>
    by_cases h0 : q = 0
    · subst h0; rfl
    · rw [natCont_pos q (Nat.pos_of_ne_zero h0)]
      unfold digitsVal
      rw [List.foldl_append]
      have := ih (q / 128) (Nat.div_lt_self (Nat.pos_of_ne_zero h0) (by omega))
      unfold digitsVal at this
      rw [this]
      simp only [List.foldl_cons, List.foldl_nil]
      omega

theorem byte_and_msb_zero {d : Nat} (h : d < 128) : d &&& 0x80 = 0 := by
  have : d &&& 2 ^ 7 = (d.testBit 7).toNat * 2 ^ 7 := Nat.and_two_pow d 7
  rw [Nat.testBit_lt_two_pow (by omega)] at this
  simpa using this

theorem term_byte_facts {m : Nat} (h : m < 64) :
    (0x80 ||| m) = 128 + m ∧ (128 + m) &&& 0x80 ≠ 0 ∧ (128 + m) &&& 0x3f = m := by
  revert m h
  decide

theorem jsShl_exact {a : Nat} (k : Nat) (h : a * 2 ^ k < 2 ^ 31) :
    jsShl (a : Int) k = ((a * 2 ^ k : Nat) : Int) := by
  have ha : a < 2 ^ 32 := by
    have := Nat.le_mul_of_pos_right a (show 0 < 2 ^ k by positivity)
    omega
  rw [jsShl, u32_ofNat_lt ha, Nat.shiftLeft_eq, asInt32_of_lt h]

theorem jsOr_exact {a m : Nat} (k : Nat) (ha : a % 2 ^ k = 0) (hm : m < 2 ^ k)
    (hb : a + m < 2 ^ 31) : jsOr ((a : Nat) : Int) m = ((a + m : Nat) : Int) := by
  obtain ⟨c, rfl⟩ : ∃ c, a = 2 ^ k * c :=
    ⟨a / 2 ^ k, (Nat.mul_div_cancel' (Nat.dvd_of_mod_eq_zero ha)).symm⟩
  rw [jsOr, u32_ofNat_lt (by omega), ← Nat.mul_add_lt_is_or hm c, asInt32_of_lt hb]

/-- The `readVInt` continuation loop consumes a run of 7-bit continuation
digits followed by a terminator byte, producing the big-endian value, as long
as that value stays below `2^31` (so none of the JavaScript 32-bit shifts
truncate). -/
theorem readVIntLoop_spec (ds : List Nat) :
    ∀ (acc m : Nat) (rest : List Nat), (∀ d ∈ ds, d < 128) → m < 64 →
    digitsVal acc ds * 64 + m < 2 ^ 31 →
    readVIntLoop ((acc : Nat) : Int) (ds ++ (0x80 ||| m) :: rest) =
      some (((digitsVal acc ds * 64 + m : Nat) : Int), rest) := by
  induction ds with
  | nil =>
    intro acc m rest _ hm hbound
    obtain ⟨he, hmsb, hlow⟩ := term_byte_facts hm
    rw [digitsVal_nil] at hbound ⊢
    rw [List.nil_append, he]
    have hun : readVIntLoop ((acc : Nat) : Int) ((128 + m) :: rest)
        = if (128 + m) &&& 0x80 ≠ 0 then
            some (jsOr (jsShl ((acc : Nat) : Int) 6) ((128 + m) &&& 0x3f), rest)
          else readVIntLoop (jsOr (jsShl ((acc : Nat) : Int) 7) ((128 + m) &&& 0x7f)) rest := rfl
    rw [hun, if_pos hmsb, hlow]
    have hacc : acc * 2 ^ 6 < 2 ^ 31 := by omega
    rw [jsShl_exact 6 hacc, jsOr_exact 6 (Nat.mul_mod_left acc (2 ^ 6)) (by omega) (by omega)]
    norm_num
  | cons d ds ih =>
    intro acc m rest hds hm hbound
    have hd : d < 128 := hds d (List.mem_cons_self d ds)
    have hstep : digitsVal acc (d :: ds) = digitsVal (acc * 128 + d) ds := digitsVal_cons acc d ds
    have hmid : acc * 128 + d ≤ digitsVal (acc * 128 + d) ds := digitsVal_le _ _
    have hb2 : acc * 2 ^ 7 < 2 ^ 31 := by rw [hstep] at hbound; omega
    rw [List.cons_append]
    have hun : readVIntLoop ((acc : Nat) : Int) (d :: (ds ++ (0x80 ||| m) :: rest))
        = if d &&& 0x80 ≠ 0 then
            some (jsOr (jsShl ((acc : Nat) : Int) 6) (d &&& 0x3f), ds ++ (0x80 ||| m) :: rest)
          else readVIntLoop (jsOr (jsShl ((acc : Nat) : Int) 7) (d &&& 0x7f))
            (ds ++ (0x80 ||| m) :: rest) := rfl
    rw [hun, if_neg (not_ne_iff.mpr (byte_and_msb_zero hd))]
    have h7 : d &&& 0x7f = d := Nat.and_pow_two_sub_one_of_lt_two_pow (n := 7) hd
    rw [h7, jsShl_exact 7 hb2,
      jsOr_exact 7 (Nat.mul_mod_left acc (2 ^ 7)) (by omega) (by rw [hstep] at hbound; omega)]
    have happ := ih (acc * 128 + d) m rest (fun x hx => hds x (List.mem_cons_of_mem d hx)) hm
      (by rw [hstep] at hbound; exact hbound)
    have h128 : acc * 2 ^ 7 + d = acc * 128 + d := by norm_num
    rw [h128, hstep, happ]

/-- `natCont q` is nonempty for positive `q`. -/
theorem natCont_ne_nil {q : Nat} (h : 0 < q) : natCont q ≠ [] := by
  rw [natCont_pos q h]
  simp

/-- Round trip of the Smile VInt for values below `2^31` — above that bound
the JavaScript 32-bit shifts inside `writeVInt` truncate (see the C8
analysis). -/
theorem readVInt_writeVInt (v : Nat) (hv : v < 2 ^ 31) (rest : List Nat) :
    readVIntBytes (writeVIntBytes (v : Int) ++ rest) = some (((v : Nat) : Int), rest) := by
  by_cases h0 : v = 0
  · subst h0
    rw [writeVIntBytes, if_pos (by norm_num), List.singleton_append]
    have hun : readVIntBytes ((0x80 : Nat) :: rest)
        = if (0x80 : Nat) &&& 0x80 ≠ 0 then some (((0x80 &&& 0x3f : Nat) : Int), rest)
          else readVIntLoop (((0x80 &&& 0x7f : Nat) : Int)) rest := rfl
    rw [hun, if_pos (by decide)]
    norm_num
    decide
  · rw [writeVIntBytes, if_neg (by exact_mod_cast h0)]
    rw [jsShr_of_lt hv 6, jsAndNat_of_lt (by omega) 0x3f]
    have hmask : v &&& 0x3f = v % 64 := Nat.and_pow_two_sub_one_eq_mod v 6
    rw [hmask, vintCont_eq_natCont (v / 2 ^ 6) (by omega), List.append_assoc,
      List.singleton_append]
    by_cases hsmall : v < 64
    · have hq0 : v / 2 ^ 6 = 0 := Nat.div_eq_of_lt (by omega)
      rw [hq0]
      obtain ⟨he, hmsb, hlow⟩ := term_byte_facts (show v % 64 < 64 by omega)
      show readVIntBytes ((0x80 ||| v % 64) :: rest) = _
      rw [he]
      have hun : readVIntBytes ((128 + v % 64) :: rest)
          = if (128 + v % 64) &&& 0x80 ≠ 0 then
              some ((((128 + v % 64) &&& 0x3f : Nat) : Int), rest)
            else readVIntLoop ((((128 + v % 64) &&& 0x7f : Nat) : Int)) rest := rfl
      rw [hun, if_pos hmsb, hlow, Nat.mod_eq_of_lt hsmall]
    · have hqpos : 0 < v / 2 ^ 6 := Nat.div_pos (by omega) (by omega)
      obtain ⟨d, ds, hds⟩ : ∃ d ds, natCont (v / 2 ^ 6) = d :: ds := by
        cases hnc : natCont (v / 2 ^ 6) with
        | nil => exact absurd hnc (natCont_ne_nil hqpos)
        | cons d ds => exact ⟨d, ds, rfl⟩
      rw [hds, List.cons_append]
      have hd : d < 128 := natCont_digits d (hds ▸ List.mem_cons_self d ds)
      have hun : readVIntBytes (d :: (ds ++ (0x80 ||| v % 64) :: rest))
          = if d &&& 0x80 ≠ 0 then some (((d &&& 0x3f : Nat) : Int), ds ++ (0x80 ||| v % 64) :: rest)
            else readVIntLoop (((d &&& 0x7f : Nat) : Int)) (ds ++ (0x80 ||| v % 64) :: rest) := rfl
      rw [hun, if_neg (not_ne_iff.mpr (byte_and_msb_zero hd))]
      have h7 : d &&& 0x7f = d := Nat.and_pow_two_sub_one_of_lt_two_pow (n := 7) hd
      rw [h7]
      have hfold : digitsVal d ds = v / 2 ^ 6 := by
        have := digitsVal_natCont (v / 2 ^ 6)
        rw [hds, digitsVal_cons] at this
        simpa using this
      have hloop := readVIntLoop_spec ds d (v % 64) rest
        (fun x hx => natCont_digits x (hds ▸ List.mem_cons_of_mem d hx))
        (by omega) (by rw [hfold]; omega)
      rw [hloop, hfold]
      congr 1
      have hvv : v / 2 ^ 6 * 64 + v % 64 = v := by omega
      rw [hvv]

end Smile

/-! ### VInt layout facts (claim C3) -/

namespace Smile

open JsBits

/-- Closed-form of `writeVInt` on in-range positive values: the base-128
big-endian digits of `v >> 6` followed by the terminator `0x80 | (v & 0x3f)`. -/
theorem writeVIntBytes_eval (v : Nat) (hv : v < 2 ^ 31) (h0 : v ≠ 0) :
    writeVIntBytes (v : Int) = natCont (v / 64) ++ [128 + v % 64] := by
  rw [writeVIntBytes, if_neg (by exact_mod_cast h0)]
  rw [jsShr_of_lt hv 6, jsAndNat_of_lt (by omega) 0x3f]
  have hmask : v &&& 0x3f = v % 64 := Nat.and_pow_two_sub_one_eq_mod v 6
  obtain ⟨he, -, -⟩ := term_byte_facts (show v % 64 < 64 from Nat.mod_lt v (by omega))
  rw [hmask, vintCont_eq_natCont (v / 2 ^ 6) (by omega), he]
  norm_num

theorem digitsVal_split (ds : List Nat) : ∀ acc : Nat,
    digitsVal acc ds = acc * 128 ^ ds.length + digitsVal 0 ds := by
  induction ds with
  | nil => intro acc; simp [digitsVal]
  | cons d ds ih =>
    intro acc
    rw [digitsVal_cons, ih (acc * 128 + d)]
    have h2 : digitsVal 0 (d :: ds) = d * 128 ^ ds.length + digitsVal 0 ds := by
      rw [digitsVal_cons]
      have := ih d
      simpa using this
    rw [h2, List.length_cons]
    ring

theorem beVal_append (ds : List Nat) (t : Nat) (h : ∀ d ∈ ds, d < 128) :
    beVal (ds ++ [t]) = digitsVal 0 ds * 64 + (t &&& 0x3f) := by
  induction ds with
  | nil => simp [beVal, digitsVal]
  | cons d ds ih =>
    have hd : d < 128 := h d (List.mem_cons_self d ds)
    have hih := ih (fun x hx => h x (List.mem_cons_of_mem d hx))
    have h7 : d &&& 0x7f = d := Nat.and_pow_two_sub_one_of_lt_two_pow (n := 7) hd
    have hsplit := digitsVal_split ds d
    have hzero : digitsVal 0 (d :: ds) = d * 128 ^ ds.length + digitsVal 0 ds := by
      rw [digitsVal_cons]
      simpa using hsplit
    cases ds with
    | nil =>
      simp only [List.nil_append, List.cons_append]
      show (d &&& 0x7f) * 2 ^ (7 * (([t] : List Nat).length - 1) + 6) + beVal [t] = _
      simp [beVal, digitsVal, h7]
    | cons c cs =>
      have hne : ((c :: cs) ++ [t] : List Nat) = c :: (cs ++ [t]) := List.cons_append c cs [t]
      show (d &&& 0x7f) * 2 ^ (7 * (((c :: cs) ++ [t]).length - 1) + 6)
          + beVal ((c :: cs) ++ [t]) = _
      rw [h7, hih, hzero]
      have hlen : ((c :: cs) ++ [t]).length - 1 = (c :: cs).length := by
        simp
      rw [hlen]
      have hpow : 2 ^ (7 * (c :: cs).length + 6) = 128 ^ (c :: cs).length * 64 := by
        rw [pow_add, pow_mul]
        norm_num
      rw [hpow]
      ring

/-- The bytes `writeVInt` emits for a positive in-range value: every byte
except the last has the high bit clear, the last byte is `0x80 + m` with
`m < 0x40` (so bit 6 is clear and the byte is never `0xFF`), and the payload
groups read **big-endian** reconstruct the value. -/
theorem writeVInt_shape (v : Nat) (hv : v < 2 ^ 31) :
    (∀ b ∈ (writeVIntBytes (v : Int)).dropLast, b < 0x80) ∧
    (∃ m, m < 0x40 ∧ (writeVIntBytes (v : Int)).getLast? = some (0x80 + m)) ∧
    (∀ b ∈ writeVIntBytes (v : Int), b ≠ 0xFF) ∧
    beVal (writeVIntBytes (v : Int)) = v := by
  by_cases h0 : v = 0
  · subst h0
    refine ⟨?_, ⟨0, by norm_num, ?_⟩, ?_, ?_⟩ <;>
      simp [writeVIntBytes, beVal] <;> decide
  · rw [writeVIntBytes_eval v hv h0]
    have hm : v % 64 < 64 := Nat.mod_lt v (by omega)
    refine ⟨?_, ⟨v % 64, hm, ?_⟩, ?_, ?_⟩
    · rw [List.dropLast_concat]
      exact fun b hb => natCont_digits b hb
    · rw [List.getLast?_concat]
    · intro b hb
      rcases List.mem_append.mp hb with h | h
      · have := natCont_digits b h
        omega
      · rcases List.mem_singleton.mp h with rfl
        omega
    · rw [beVal_append _ _ (fun d hd => natCont_digits d hd), digitsVal_natCont]
      obtain ⟨-, -, hlow⟩ := term_byte_facts hm
      rw [hlow]
      omega

end Smile

namespace Smile

open JsBits

/-- **C3, counterexample.**  The claim says `writeVInt` emits the value
base-128 **little-endian** (least-significant group first).  At the concrete
input 64 the emitted bytes are `[0x01, 0x80]`: read least-significant-group
first they carry the value 1, not 64 (read most-significant-group first they
carry 64 — see the amended theorem).  Moreover the quantifier "for every
non-negative integer" fails as well: at `2^31` the JavaScript 32-bit shifts
inside `writeVInt` truncate and a single byte `0x80` (value 0) is emitted. -/
theorem smile_c3_vint_little_endian_cex :
    writeVIntBytes (64 : Int) = [0x01, 0x80] ∧
    leVal [0x01, 0x80] = 1 ∧ (1 : Nat) ≠ 64 ∧
    writeVIntBytes (2147483648 : Int) = [0x80] ∧ beVal [0x80] = 0 := by
  refine ⟨?_, by decide, by decide, ?_, by decide⟩
  · rw [show (64 : Int) = ((64 : Nat) : Int) by norm_num,
      writeVIntBytes_eval 64 (by norm_num) (by norm_num)]
    decide
  · rw [writeVIntBytes, if_neg (by norm_num)]
    have h1 : jsShr (2147483648 : Int) 6 = -33554432 := by decide
    have h2 : jsAndNat (2147483648 : Int) 0x3f = 0 := by decide
    have h3 : vintCont (-33554432 : Int) = [] := by
      rw [vintCont]
      norm_num
    rw [h1, h2, h3]
    rfl

/-- **C3 (amended).**  For every non-negative integer `v < 2^31` (beyond
that bound the 32-bit shifts inside `writeVInt` truncate), `writeVInt` emits
the value base-128 **big-endian** (most-significant group first), with
termination signaled by the high bit set on the last byte only; the last byte
carries exactly 6 payload bits with its bit 6 clear, so an emitted VInt byte
is never `0xFF`; `readVInt` recovers the value; and the signed mapping used
before VInt emission is ZigZag: `n ≥ 0 ↦ 2n`, `n < 0 ↦ -(2n)-1`. -/
theorem smile_c3_vint_layout (v : Nat) (hv : v < 2 ^ 31) :
    (∀ b ∈ (writeVIntBytes (v : Int)).dropLast, b < 0x80) ∧
    (∃ m, m < 0x40 ∧ (writeVIntBytes (v : Int)).getLast? = some (0x80 + m)) ∧
    (∀ b ∈ writeVIntBytes (v : Int), b ≠ 0xFF) ∧
    beVal (writeVIntBytes (v : Int)) = v ∧
    (∀ rest, readVIntBytes (writeVIntBytes (v : Int) ++ rest) = some ((v : Int), rest)) ∧
    (∀ n : Int, zigzagEncode n = if 0 ≤ n then 2 * n else -(2 * n) - 1) := by
  obtain ⟨ha, hb, hc, hd⟩ := writeVInt_shape v hv
  refine ⟨ha, hb, hc, hd, fun rest => readVInt_writeVInt v hv rest, fun n => ?_⟩
  unfold zigzagEncode
  split <;> ring

/-- Witness for `smile_c3_vint_layout` at `v = 300`. -/
theorem smile_c3_vint_layout_witness :
    (300 : Nat) < 2 ^ 31 ∧
    ((∀ b ∈ (writeVIntBytes ((300 : Nat) : Int)).dropLast, b < 0x80) ∧
    (∃ m, m < 0x40 ∧ (writeVIntBytes ((300 : Nat) : Int)).getLast? = some (0x80 + m)) ∧
    (∀ b ∈ writeVIntBytes ((300 : Nat) : Int), b ≠ 0xFF) ∧
    beVal (writeVIntBytes ((300 : Nat) : Int)) = 300 ∧
    (∀ rest, readVIntBytes (writeVIntBytes ((300 : Nat) : Int) ++ rest)
      = some (((300 : Nat) : Int), rest)) ∧
    (∀ n : Int, zigzagEncode n = if 0 ≤ n then 2 * n else -(2 * n) - 1)) :=
  ⟨by norm_num, smile_c3_vint_layout 300 (by norm_num)⟩

end Smile

/-! ## Smile: 7-bit safe binary (`encodeSafeBinary` / `decodeSafeBinary`) -/

namespace Smile

open JsBits

/-- The bit `encodeSafeBinary` reads at global input-bit index `i`: bit
`7 - i % 8` of input byte `i / 8`, MSB first, padding with zeroes past the
end of the input (`if (inputByteIndex >= data.length) value <<= 1`). -/
def bitOf (data : List Nat) (i : Nat) : Nat :=
  if i / 8 < data.length then (data.getD (i / 8) 0 >>> (7 - i % 8)) &&& 1 else 0

/-- Output byte `j` of `encodeSafeBinary`: the inner `for (bit = 0; bit < 7)`
loop collects input bits `7*j .. 7*j+6` via `value = (value << 1) | sourceBit`. -/
def encByte (data : List Nat) (j : Nat) : Nat :=
  List.foldl (fun v k => (v <<< 1) ||| bitOf data (7 * j + k)) 0 (List.range 7)

/-- `Math.ceil(n * 8 / 7)`, the output size of `encodeSafeBinary`. -/
def safeBinSize (n : Nat) : Nat := (n * 8 + 6) / 7

/-- `encodeSafeBinary` from `src/smile/util.ts`: empty input maps to an empty
output; otherwise `outputSize = ceil(n*8/7)` bytes, each collecting the next
seven input bits. -/
def encodeSafeBinary (data : List Nat) : List Nat :=
  if data.length = 0 then []
  else (List.range (safeBinSize data.length)).map (encByte data)

/-- The bit `decodeSafeBinary` extracts at global encoded-bit index `m`: bit
`6 - m % 7` of `encodedData[m / 7] & 0x7f`. -/
def decBit (enc : List Nat) (m : Nat) : Nat :=
  ((enc.getD (m / 7) 0 &&& 0x7f) >>> (6 - m % 7)) &&& 1

/-- Output byte `i` of `decodeSafeBinary`: encoded bits `8*i .. 8*i+7` are
OR-ed in at positions `7 - offset`; a bit only exists while the outer loop
still has encoded bytes, i.e. while its global index is `< 7 * enc.length`. -/
def decByte (enc : List Nat) (i : Nat) : Nat :=
  List.foldl
    (fun v k => if 8 * i + k < 7 * enc.length then v ||| decBit enc (8 * i + k) <<< (7 - k) else v)
    0 (List.range 8)

/-- `decodeSafeBinary` from `src/smile/util.ts`: `originalLength` output
bytes (zero-filled where the encoded input provides no bits). -/
def decodeSafeBinary (enc : List Nat) (originalLength : Nat) : List Nat :=
  if originalLength = 0 then []
  else (List.range originalLength).map (decByte enc)

end Smile

namespace Smile

open JsBits

theorem nat_or_eq_add {a m : Nat} (k : Nat) (ha : a % 2 ^ k = 0) (hm : m < 2 ^ k) :
    a ||| m = a + m := by
  obtain ⟨c, rfl⟩ : ∃ c, a = 2 ^ k * c :=
    ⟨a / 2 ^ k, (Nat.mul_div_cancel' (Nat.dvd_of_mod_eq_zero ha)).symm⟩
  exact (Nat.mul_add_lt_is_or hm c).symm

theorem shl1_or_bit (v b : Nat) (hb : b < 2) : (v <<< 1) ||| b = 2 * v + b := by
  rw [Nat.shiftLeft_eq, pow_one, Nat.mul_comm]
  exact nat_or_eq_add 1 (by omega) (by omega)

/-- Evaluation of the seven-step `value = (value << 1) | bit` fold. -/
theorem fold7_poly (f : Nat → Nat) (h : ∀ k, k < 7 → f k < 2) :
    List.foldl (fun v k => (v <<< 1) ||| f k) 0 (List.range 7)
      = 64 * f 0 + 32 * f 1 + 16 * f 2 + 8 * f 3 + 4 * f 4 + 2 * f 5 + f 6 := by
  have hr : List.range 7 = [0, 1, 2, 3, 4, 5, 6] := by decide
  rw [hr]
  simp only [List.foldl_cons, List.foldl_nil]
  rw [shl1_or_bit _ _ (h 0 (by omega))]
  rw [shl1_or_bit _ _ (h 1 (by omega))]
  rw [shl1_or_bit _ _ (h 2 (by omega))]
  rw [shl1_or_bit _ _ (h 3 (by omega))]
  rw [shl1_or_bit _ _ (h 4 (by omega))]
  rw [shl1_or_bit _ _ (h 5 (by omega))]
  rw [shl1_or_bit _ _ (h 6 (by omega))]
  ring

/-- Any value below 128 is the weighted sum of its seven bits. -/
theorem byte7_decomp : ∀ x, x < 128 →
    x = 64 * ((x >>> 6) &&& 1) + 32 * ((x >>> 5) &&& 1) + 16 * ((x >>> 4) &&& 1)
      + 8 * ((x >>> 3) &&& 1) + 4 * ((x >>> 2) &&& 1) + 2 * ((x >>> 1) &&& 1)
      + ((x >>> 0) &&& 1) := by
  decide

theorem and1_lt (x : Nat) : x &&& 1 < 2 := Nat.lt_succ_of_le Nat.and_le_right

theorem bitOf_lt (data : List Nat) (i : Nat) : bitOf data i < 2 := by
  unfold bitOf
  split
  · exact Nat.lt_succ_of_le (Nat.and_le_right)
  · omega

theorem encByte_eval (data : List Nat) (j : Nat) :
    encByte data j
      = 64 * bitOf data (7 * j) + 32 * bitOf data (7 * j + 1) + 16 * bitOf data (7 * j + 2)
        + 8 * bitOf data (7 * j + 3) + 4 * bitOf data (7 * j + 4) + 2 * bitOf data (7 * j + 5)
        + bitOf data (7 * j + 6) := by
  have := fold7_poly (fun k => bitOf data (7 * j + k)) (fun k _ => bitOf_lt data (7 * j + k))
  unfold encByte
  rw [this]
  norm_num

theorem encByte_lt (data : List Nat) (j : Nat) : encByte data j < 128 := by
  rw [encByte_eval]
  have h0 := bitOf_lt data (7 * j)
  have h1 := bitOf_lt data (7 * j + 1)
  have h2 := bitOf_lt data (7 * j + 2)
  have h3 := bitOf_lt data (7 * j + 3)
  have h4 := bitOf_lt data (7 * j + 4)
  have h5 := bitOf_lt data (7 * j + 5)
  have h6 := bitOf_lt data (7 * j + 6)
  omega

/-- Extracting bit `6 - r` (for `r < 7`) of `encByte data g` recovers input
bit `7 * g + r`. -/
theorem encByte_testBit (data : List Nat) (g r : Nat) (hr : r < 7) :
    (encByte data g >>> (6 - r)) &&& 1 = bitOf data (7 * g + r) := by
  have hx := encByte_eval data g
  have hlt := encByte_lt data g
  have hdec := byte7_decomp (encByte data g) hlt
  have h0 := bitOf_lt data (7 * g)
  have h1 := bitOf_lt data (7 * g + 1)
  have h2 := bitOf_lt data (7 * g + 2)
  have h3 := bitOf_lt data (7 * g + 3)
  have h4 := bitOf_lt data (7 * g + 4)
  have h5 := bitOf_lt data (7 * g + 5)
  have h6 := bitOf_lt data (7 * g + 6)
  have e6 := and1_lt (encByte data g >>> 6)
  have e5 := and1_lt (encByte data g >>> 5)
  have e4 := and1_lt (encByte data g >>> 4)
  have e3 := and1_lt (encByte data g >>> 3)
  have e2 := and1_lt (encByte data g >>> 2)
  have e1 := and1_lt (encByte data g >>> 1)
  have e0 := and1_lt (encByte data g >>> 0)
  interval_cases r <;> norm_num <;> omega

end Smile

namespace Smile

open JsBits

theorem getD_range_map (f : Nat → Nat) (s g : Nat) :
    ((List.range s).map f).getD g 0 = if g < s then f g else 0 := by
  by_cases h : g < s
  · rw [if_pos h, List.getD_eq_getElem _ _ (by simpa using h)]
    simp
  · rw [if_neg h, List.getD_eq_default]
    simpa using h

theorem encodeSafeBinary_getD (data : List Nat) (g : Nat)
    (hg : g < safeBinSize data.length) :
    (encodeSafeBinary data).getD g 0 = encByte data g := by
  unfold encodeSafeBinary
  have hn : data.length ≠ 0 := by
    intro h
    rw [h] at hg
    simp [safeBinSize] at hg
  rw [if_neg hn, getD_range_map, if_pos hg]

/-- Each decoded bit of an encoded buffer is the corresponding input bit. -/
theorem decBit_encode (data : List Nat) (m : Nat)
    (hm : m / 7 < safeBinSize data.length) :
    decBit (encodeSafeBinary data) m = bitOf data m := by
  unfold decBit
  rw [encodeSafeBinary_getD data (m / 7) hm]
  rw [Nat.and_pow_two_sub_one_of_lt_two_pow (n := 7) (encByte_lt data (m / 7))]
  rw [encByte_testBit data (m / 7) (m % 7) (Nat.mod_lt m (by omega))]
  congr 1
  omega

set_option maxRecDepth 4000 in
theorem byte8_decomp : ∀ x, x < 256 →
    x = 128 * ((x >>> 7) &&& 1) + 64 * ((x >>> 6) &&& 1) + 32 * ((x >>> 5) &&& 1)
      + 16 * ((x >>> 4) &&& 1) + 8 * ((x >>> 3) &&& 1) + 4 * ((x >>> 2) &&& 1)
      + 2 * ((x >>> 1) &&& 1) + ((x >>> 0) &&& 1) := by
  decide

theorem or_chain8 (c0 c1 c2 c3 c4 c5 c6 c7 : Nat)
    (h0 : c0 < 2) (h1 : c1 < 2) (h2 : c2 < 2) (h3 : c3 < 2)
    (h4 : c4 < 2) (h5 : c5 < 2) (h6 : c6 < 2) (h7 : c7 < 2) :
    c0 * 128 ||| c1 * 64 ||| c2 * 32 ||| c3 * 16 ||| c4 * 8 ||| c5 * 4 ||| c6 * 2 ||| c7
      = 128 * c0 + 64 * c1 + 32 * c2 + 16 * c3 + 8 * c4 + 4 * c5 + 2 * c6 + c7 := by
  have s1 : c0 * 128 ||| c1 * 64 = c0 * 128 + c1 * 64 :=
    nat_or_eq_add 7 (by omega) (by omega)
  rw [s1]
  have s2 : c0 * 128 + c1 * 64 ||| c2 * 32 = c0 * 128 + c1 * 64 + c2 * 32 :=
    nat_or_eq_add 6 (by omega) (by omega)
  rw [s2]
  have s3 : c0 * 128 + c1 * 64 + c2 * 32 ||| c3 * 16
      = c0 * 128 + c1 * 64 + c2 * 32 + c3 * 16 :=
    nat_or_eq_add 5 (by omega) (by omega)
  rw [s3]
  have s4 : c0 * 128 + c1 * 64 + c2 * 32 + c3 * 16 ||| c4 * 8
      = c0 * 128 + c1 * 64 + c2 * 32 + c3 * 16 + c4 * 8 :=
    nat_or_eq_add 4 (by omega) (by omega)
  rw [s4]
  have s5 : c0 * 128 + c1 * 64 + c2 * 32 + c3 * 16 + c4 * 8 ||| c5 * 4
      = c0 * 128 + c1 * 64 + c2 * 32 + c3 * 16 + c4 * 8 + c5 * 4 :=
    nat_or_eq_add 3 (by omega) (by omega)
  rw [s5]
  have s6 : c0 * 128 + c1 * 64 + c2 * 32 + c3 * 16 + c4 * 8 + c5 * 4 ||| c6 * 2
      = c0 * 128 + c1 * 64 + c2 * 32 + c3 * 16 + c4 * 8 + c5 * 4 + c6 * 2 :=
    nat_or_eq_add 2 (by omega) (by omega)
  rw [s6]
  have s7 : c0 * 128 + c1 * 64 + c2 * 32 + c3 * 16 + c4 * 8 + c5 * 4 + c6 * 2 ||| c7
      = c0 * 128 + c1 * 64 + c2 * 32 + c3 * 16 + c4 * 8 + c5 * 4 + c6 * 2 + c7 :=
    nat_or_eq_add 1 (by omega) (by omega)
  rw [s7]
  ring

theorem decBit_lt (enc : List Nat) (m : Nat) : decBit enc m < 2 := and1_lt _

/-- Evaluation of the `decodeSafeBinary` per-byte OR-accumulation when all
eight source bits exist in the encoded buffer. -/
theorem decByte_eval (enc : List Nat) (i : Nat) (hall : 8 * i + 7 < 7 * enc.length) :
    decByte enc i
      = 128 * decBit enc (8 * i) + 64 * decBit enc (8 * i + 1) + 32 * decBit enc (8 * i + 2)
        + 16 * decBit enc (8 * i + 3) + 8 * decBit enc (8 * i + 4) + 4 * decBit enc (8 * i + 5)
        + 2 * decBit enc (8 * i + 6) + decBit enc (8 * i + 7) := by
  have hr : List.range 8 = [0, 1, 2, 3, 4, 5, 6, 7] := by decide
  unfold decByte
  rw [hr]
  simp only [List.foldl_cons, List.foldl_nil]
  rw [if_pos (show 8 * i + 0 < 7 * enc.length by omega)]
  rw [if_pos (show 8 * i + 1 < 7 * enc.length by omega)]
  rw [if_pos (show 8 * i + 2 < 7 * enc.length by omega)]
  rw [if_pos (show 8 * i + 3 < 7 * enc.length by omega)]
  rw [if_pos (show 8 * i + 4 < 7 * enc.length by omega)]
  rw [if_pos (show 8 * i + 5 < 7 * enc.length by omega)]
  rw [if_pos (show 8 * i + 6 < 7 * enc.length by omega)]
  rw [if_pos (show 8 * i + 7 < 7 * enc.length by omega)]
  simp only [Nat.shiftLeft_eq]
  norm_num
  have c0 := decBit_lt enc (8 * i)
  have c1 := decBit_lt enc (8 * i + 1)
  have c2 := decBit_lt enc (8 * i + 2)
  have c3 := decBit_lt enc (8 * i + 3)
  have c4 := decBit_lt enc (8 * i + 4)
  have c5 := decBit_lt enc (8 * i + 5)
  have c6 := decBit_lt enc (8 * i + 6)
  have c7 := decBit_lt enc (8 * i + 7)
  exact or_chain8 _ _ _ _ _ _ _ _ c0 c1 c2 c3 c4 c5 c6 c7

end Smile

namespace Smile

open JsBits

theorem safeBinSize_seven (n : Nat) : 8 * n ≤ 7 * safeBinSize n := by
  unfold safeBinSize
  omega

theorem safeBinSize_derived (n : Nat) : safeBinSize n * 7 / 8 = n := by
  unfold safeBinSize
  omega

theorem encodeSafeBinary_length (data : List Nat) :
    (encodeSafeBinary data).length = safeBinSize data.length := by
  unfold encodeSafeBinary
  by_cases h : data.length = 0
  · rw [if_pos h, h]
    simp [safeBinSize]
  · rw [if_neg h]
    simp

theorem encodeSafeBinary_bytes (data : List Nat) :
    ∀ y ∈ encodeSafeBinary data, y ≤ 0x7f := by
  unfold encodeSafeBinary
  split
  · intro y hy
    cases hy
  · intro y hy
    obtain ⟨j, -, rfl⟩ := List.mem_map.mp hy
    have := encByte_lt data j
    omega

theorem bitOf_index (data : List Nat) (m i k : Nat) (h1 : m / 8 = i) (h2 : m % 8 = k)
    (hi : i < data.length) :
    bitOf data m = (data.getD i 0 >>> (7 - k)) &&& 1 := by
  unfold bitOf
  rw [h1, h2, if_pos hi]

/-- Safe-binary round trip: decoding an encoded buffer at the original
length recovers the input byte-for-byte. -/
theorem decodeSafeBinary_encodeSafeBinary (data : List Nat) (hd : ∀ x ∈ data, x < 256) :
    decodeSafeBinary (encodeSafeBinary data) data.length = data := by
  by_cases hn : data.length = 0
  · rw [List.length_eq_zero] at hn
    subst hn
    rfl
  · unfold decodeSafeBinary
    rw [if_neg hn]
    apply List.ext_getElem
    · simp
    · intro i hi1 hi2
      have hi : i < data.length := hi2
      have hlen : (encodeSafeBinary data).length = safeBinSize data.length :=
        encodeSafeBinary_length data
      have hsz := safeBinSize_seven data.length
      have hall : 8 * i + 7 < 7 * (encodeSafeBinary data).length := by
        rw [hlen]
        omega
      rw [List.getElem_map, List.getElem_range]
      rw [decByte_eval _ _ hall]
      have hdiv : ∀ m, m ≤ 8 * data.length - 1 → m / 7 < safeBinSize data.length := by
        intro m hm
        have h7 : 7 * safeBinSize data.length ≥ 8 * data.length := hsz
        omega
      rw [decBit_encode data (8 * i) (by apply hdiv; omega)]
      rw [decBit_encode data (8 * i + 1) (by apply hdiv; omega)]
      rw [decBit_encode data (8 * i + 2) (by apply hdiv; omega)]
      rw [decBit_encode data (8 * i + 3) (by apply hdiv; omega)]
      rw [decBit_encode data (8 * i + 4) (by apply hdiv; omega)]
      rw [decBit_encode data (8 * i + 5) (by apply hdiv; omega)]
      rw [decBit_encode data (8 * i + 6) (by apply hdiv; omega)]
      rw [decBit_encode data (8 * i + 7) (by apply hdiv; omega)]
      rw [bitOf_index data (8 * i) i 0 (by omega) (by omega) hi]
      rw [bitOf_index data (8 * i + 1) i 1 (by omega) (by omega) hi]
      rw [bitOf_index data (8 * i + 2) i 2 (by omega) (by omega) hi]
      rw [bitOf_index data (8 * i + 3) i 3 (by omega) (by omega) hi]
      rw [bitOf_index data (8 * i + 4) i 4 (by omega) (by omega) hi]
      rw [bitOf_index data (8 * i + 5) i 5 (by omega) (by omega) hi]
      rw [bitOf_index data (8 * i + 6) i 6 (by omega) (by omega) hi]
      rw [bitOf_index data (8 * i + 7) i 7 (by omega) (by omega) hi]
      have hgd : data.getD i 0 = data[i] := List.getD_eq_getElem data 0 hi
      have hx : data.getD i 0 < 256 := by
        rw [hgd]
        exact hd _ (List.getElem_mem hi)
      have hdec := byte8_decomp (data.getD i 0) hx
      rw [← hgd]
      norm_num
      norm_num at hdec
      omega

end Smile

namespace Smile

open JsBits

/-- `SmileEncoderBase.writeBin`: with `rawBinaryEnabled` the token `0xFD`,
the VInt of the raw length, and the raw bytes; otherwise the token `0xE8`,
the VInt of the **7-bit-encoded** length, and the encoded payload. -/
def writeBinBytes (rawBinaryEnabled : Bool) (buf : List Nat) : List Nat :=
  if rawBinaryEnabled then
    0xFD :: (writeVIntBytes ((buf.length : Nat) : Int) ++ buf)
  else
    0xE8 :: (writeVIntBytes (((encodeSafeBinary buf).length : Nat) : Int) ++ encodeSafeBinary buf)

/-- `SmileDecoderBase.readBinary` (after the `0xE8` token): read a VInt as
the encoded length, take that many bytes, derive
`originalLength = Math.floor(encodedLength * 7 / 8)` and 7-bit-decode.
The reader's `buf(n)` is modelled per spec §3.3: reading past the end fails;
a negative length (impossible on `writeVInt` output) is modelled as a
failure as well. -/
def readBinaryBytes (bs : List Nat) : Option (List Nat × List Nat) :=
  match readVIntBytes bs with
  | none => none
  | some (encLen, rest) =>
    if 0 ≤ encLen then
      if encLen.toNat ≤ rest.length then
        some (decodeSafeBinary (rest.take encLen.toNat) (encLen.toNat * 7 / 8),
          rest.drop encLen.toNat)
      else none
    else none

theorem readBinaryBytes_writeBin (buf : List Nat) (hb : ∀ x ∈ buf, x < 256)
    (hlen : 8 * buf.length < 2 ^ 31) (rest : List Nat) :
    readBinaryBytes (writeVIntBytes (((encodeSafeBinary buf).length : Nat) : Int)
      ++ (encodeSafeBinary buf ++ rest)) = some (buf, rest) := by
  have hsz : (encodeSafeBinary buf).length = safeBinSize buf.length :=
    encodeSafeBinary_length buf
  have hm : (encodeSafeBinary buf).length < 2 ^ 31 := by
    rw [hsz]
    unfold safeBinSize
    omega
  unfold readBinaryBytes
  rw [readVInt_writeVInt _ hm]
  dsimp only
  have h0 : (0 : Int) ≤ (((encodeSafeBinary buf).length : Nat) : Int) := by positivity
  rw [if_pos h0]
  rw [Int.toNat_ofNat]
  have hle : (encodeSafeBinary buf).length ≤ (encodeSafeBinary buf ++ rest).length := by
    simp
  rw [if_pos hle]
  rw [List.take_left, List.drop_left]
  rw [hsz, safeBinSize_derived]
  rw [decodeSafeBinary_encodeSafeBinary buf hb]

end Smile

/-- **C9.**  For every byte array `b` of length `n` (with bytes `< 256` and
`8·n` within the 32-bit range `writeVInt` can carry), `encodeSafeBinary b`
produces exactly `⌈8n/7⌉ = (8n+6)/7` bytes, each in `0x00..0x7F`;
`decodeSafeBinary` applied to that output at the length the decoder derives,
`⌊(encoded length)·7/8⌋`, returns `b`; and `writeBin` in the default
(non-raw) mode followed by `readBinary` reproduces the input bytes. -/
theorem smile_c9_safe_binary_roundtrip (b : List Nat) (hb : ∀ x ∈ b, x < 256)
    (hlen : 8 * b.length < 2 ^ 31) :
    (Smile.encodeSafeBinary b).length = (8 * b.length + 6) / 7 ∧
    (∀ y ∈ Smile.encodeSafeBinary b, y ≤ 0x7f) ∧
    Smile.decodeSafeBinary (Smile.encodeSafeBinary b)
      ((Smile.encodeSafeBinary b).length * 7 / 8) = b ∧
    (∀ rest, Smile.writeBinBytes false b ++ rest
        = 0xE8 :: (Smile.writeVIntBytes (((Smile.encodeSafeBinary b).length : Nat) : Int)
            ++ (Smile.encodeSafeBinary b ++ rest))) ∧
    (∀ rest, Smile.readBinaryBytes
        (Smile.writeVIntBytes (((Smile.encodeSafeBinary b).length : Nat) : Int)
          ++ (Smile.encodeSafeBinary b ++ rest)) = some (b, rest)) := by
  refine ⟨?_, Smile.encodeSafeBinary_bytes b, ?_, ?_, ?_⟩
  · rw [Smile.encodeSafeBinary_length]
    unfold Smile.safeBinSize
    ring_nf
  · rw [Smile.encodeSafeBinary_length, Smile.safeBinSize_derived]
    exact Smile.decodeSafeBinary_encodeSafeBinary b hb
  · intro rest
    unfold Smile.writeBinBytes
    simp
  · intro rest
    exact Smile.readBinaryBytes_writeBin b hb hlen rest

/-- Witness for `smile_c9_safe_binary_roundtrip` at `b = [1, 2, 3]`. -/
theorem smile_c9_safe_binary_roundtrip_witness :
    (∀ x ∈ [1, 2, 3], x < 256) ∧ 8 * ([1, 2, 3] : List Nat).length < 2 ^ 31 ∧
    ((Smile.encodeSafeBinary [1, 2, 3]).length = (8 * ([1, 2, 3] : List Nat).length + 6) / 7 ∧
    (∀ y ∈ Smile.encodeSafeBinary [1, 2, 3], y ≤ 0x7f) ∧
    Smile.decodeSafeBinary (Smile.encodeSafeBinary [1, 2, 3])
      ((Smile.encodeSafeBinary [1, 2, 3]).length * 7 / 8) = [1, 2, 3] ∧
    (∀ rest, Smile.writeBinBytes false [1, 2, 3] ++ rest
        = 0xE8 :: (Smile.writeVIntBytes (((Smile.encodeSafeBinary [1, 2, 3]).length : Nat) : Int)
            ++ (Smile.encodeSafeBinary [1, 2, 3] ++ rest))) ∧
    (∀ rest, Smile.readBinaryBytes
        (Smile.writeVIntBytes (((Smile.encodeSafeBinary [1, 2, 3]).length : Nat) : Int)
          ++ (Smile.encodeSafeBinary [1, 2, 3] ++ rest)) = some ([1, 2, 3], rest))) :=
  ⟨by decide, by decide, smile_c9_safe_binary_roundtrip [1, 2, 3] (by decide) (by decide)⟩

/-! ## Strings: UTF-16 length, `TextEncoder`, `TextDecoder`

JavaScript strings are UTF-16; `str.length` counts UTF-16 code units.
`TextEncoder` produces the UTF-8 bytes of the string; `TextDecoder`
(constructed without `fatal`) decodes UTF-8, substituting U+FFFD on
malformed input.  The verified code paths only ever decode the valid UTF-8
the encoder produced, so the replacement behaviour beyond "malformed bytes
do not throw and give replacement characters" is approximated (one byte
consumed per malformed sequence). -/

namespace JsStr

/-- JavaScript `str.length`: the number of UTF-16 code units. -/
def jsLength (s : String) : Nat :=
  (s.data.map (fun c => if c.toNat < 0x10000 then 1 else 2)).sum

/-- UTF-8 bytes of one Unicode scalar. -/
def utf8Char (c : Char) : List Nat :=
  let n := c.toNat
  if n < 0x80 then [n]
  else if n < 0x800 then [0xC0 ||| (n >>> 6), 0x80 ||| (n &&& 0x3F)]
  else if n < 0x10000 then
    [0xE0 ||| (n >>> 12), 0x80 ||| ((n >>> 6) &&& 0x3F), 0x80 ||| (n &&& 0x3F)]
  else
    [0xF0 ||| (n >>> 18), 0x80 ||| ((n >>> 12) &&& 0x3F),
      0x80 ||| ((n >>> 6) &&& 0x3F), 0x80 ||| (n &&& 0x3F)]

/-- `new TextEncoder().encode(s)`. -/
def utf8Encode (s : String) : List Nat := s.data.flatMap utf8Char

/-- Is a byte a UTF-8 continuation byte? -/
def isCont (b : Nat) : Bool := 0x80 ≤ b && b < 0xC0

/-- UTF-8 decoding of a byte list into Unicode scalars, U+FFFD on malformed
sequences (overlong forms, surrogates, out-of-range, truncation).  The fuel
argument only drives the recursion; every step consumes at least one byte,
so fuel equal to the input length never runs out. -/
def utf8DecodeListF : Nat → List Nat → List Char
  | 0, _ => []
  | _ + 1, [] => []
  | f + 1, b :: rest =>
    if b < 0x80 then Char.ofNat b :: utf8DecodeListF f rest
    else if 0xC0 ≤ b ∧ b < 0xE0 then
      match rest with
      | b2 :: r2 =>
        if isCont b2 then
          let v := ((b - 0xC0) <<< 6) ||| (b2 &&& 0x3F)
          if 0x80 ≤ v then Char.ofNat v :: utf8DecodeListF f r2
          else (Char.ofNat 0xFFFD) :: utf8DecodeListF f r2
        else (Char.ofNat 0xFFFD) :: utf8DecodeListF f rest
      | [] => [Char.ofNat 0xFFFD]
    else if 0xE0 ≤ b ∧ b < 0xF0 then
      match rest with
      | b2 :: b3 :: r3 =>
        if isCont b2 && isCont b3 then
          let v := ((b - 0xE0) <<< 12) ||| ((b2 &&& 0x3F) <<< 6) ||| (b3 &&& 0x3F)
          if 0x800 ≤ v ∧ ¬(0xD800 ≤ v ∧ v < 0xE000) then Char.ofNat v :: utf8DecodeListF f r3
          else (Char.ofNat 0xFFFD) :: utf8DecodeListF f r3
        else (Char.ofNat 0xFFFD) :: utf8DecodeListF f rest
      | _ => [Char.ofNat 0xFFFD]
    else if 0xF0 ≤ b ∧ b < 0xF8 then
      match rest with
      | b2 :: b3 :: b4 :: r4 =>
        if isCont b2 && isCont b3 && isCont b4 then
          let v := ((b - 0xF0) <<< 18) ||| ((b2 &&& 0x3F) <<< 12)
            ||| ((b3 &&& 0x3F) <<< 6) ||| (b4 &&& 0x3F)
          if 0x10000 ≤ v ∧ v ≤ 0x10FFFF then Char.ofNat v :: utf8DecodeListF f r4
          else (Char.ofNat 0xFFFD) :: utf8DecodeListF f r4
        else (Char.ofNat 0xFFFD) :: utf8DecodeListF f rest
      | _ => [Char.ofNat 0xFFFD]
    else (Char.ofNat 0xFFFD) :: utf8DecodeListF f rest

/-- UTF-8 decoding of a byte list. -/
def utf8DecodeList (bs : List Nat) : List Char := utf8DecodeListF bs.length bs

/-- `new TextDecoder().decode(bytes)`. -/
def utf8DecodeStr (bs : List Nat) : String := ⟨utf8DecodeList bs⟩

end JsStr

namespace JsStr

theorem utf8Char_ascii {c : Char} (h : c.toNat < 0x80) : utf8Char c = [c.toNat] := by
  unfold utf8Char
  rw [if_pos h]

theorem utf8Encode_ascii (cs : List Char) (h : ∀ c ∈ cs, c.toNat < 0x80) :
    (String.mk cs).data.flatMap utf8Char = cs.map Char.toNat := by
  induction cs with
  | nil => rfl
  | cons c cs ih =>
    have hc := h c (List.mem_cons_self c cs)
    have hrest := ih (fun x hx => h x (List.mem_cons_of_mem c hx))
    simp only [List.flatMap_cons, utf8Char_ascii hc, List.map_cons]
    simpa using hrest

theorem utf8DecodeListF_ascii (cs : List Char) (h : ∀ c ∈ cs, c.toNat < 0x80) :
    ∀ f, cs.length ≤ f → utf8DecodeListF f (cs.map Char.toNat) = cs := by
  induction cs with
  | nil =>
    intro f hf
    cases f <;> rfl
  | cons c cs ih =>
    intro f hf
    have hc := h c (List.mem_cons_self c cs)
    obtain ⟨g, rfl⟩ : ∃ g, f = g + 1 := ⟨f - 1, by simp at hf; omega⟩
    show utf8DecodeListF (g + 1) (c.toNat :: cs.map Char.toNat) = c :: cs
    unfold utf8DecodeListF
    rw [if_pos hc, Char.ofNat_toNat]
    rw [ih (fun x hx => h x (List.mem_cons_of_mem c hx)) g (by simp at hf; omega)]

/-- Round trip of `TextEncoder`/`TextDecoder` on ASCII strings. -/
theorem utf8Decode_utf8Encode_ascii (s : String) (h : ∀ c ∈ s.data, c.toNat < 0x80) :
    utf8DecodeStr (utf8Encode s) = s := by
  unfold utf8DecodeStr utf8Encode utf8DecodeList
  obtain ⟨cs⟩ := s
  rw [utf8Encode_ascii cs h]
  rw [List.length_map]
  rw [utf8DecodeListF_ascii cs h cs.length (le_refl _)]

/-- On an ASCII string the UTF-8 byte count equals the UTF-16 length. -/
theorem utf8_length_ascii (s : String) (h : ∀ c ∈ s.data, c.toNat < 0x80) :
    (utf8Encode s).length = jsLength s := by
  unfold utf8Encode jsLength
  obtain ⟨cs⟩ := s
  rw [utf8Encode_ascii cs h]
  induction cs with
  | nil => rfl
  | cons c cs ih =>
    have hc := h c (List.mem_cons_self c cs)
    have := ih (fun x hx => h x (List.mem_cons_of_mem c hx))
    simp only [List.map_cons, List.length_cons, List.sum_cons]
    rw [if_pos (by omega)]
    simp at this ⊢
    omega

end JsStr

/-! ## Smile encoder (`SmileEncoderBase.ts`)

Token constants are from `src/smile/constants.ts`.  One source caveat,
documented here because it affects `writeStr`: the ASCII branch of the
source `writeStr` contains a duplicated `SHORT_ASCII` write (lines 174–177)
that leaves the function's braces unbalanced — a merge artifact at the
syntax level.  This embedding uses the structure that the surrounding
indentation, the decoder's token ranges, and the test suite (strings of
length 32..1000 are expected to round-trip through `LONG_ASCII_TEXT`)
imply: ASCII strings of more than 31 characters use the `0xE0` long-text
framing. -/

namespace Smile

open JsBits JsStr

/-- The encoder's input values: the JSON data model extended with binary
blobs.  A JavaScript number that is an integer is carried as its exact
integer value `n` together with `repr`, the string `n.toString()` produces
(for non-safe integers the shortest-round-trip decimal digits of the host
double are not derivable from the value alone, so the embedding carries
them).  Non-integer (IEEE float) inputs are outside the embedding. -/
inductive SVal where
  | nul
  | bool (b : Bool)
  | int (n : Int) (repr : String)
  | str (s : String)
  | arr (items : List SVal)
  | obj (fields : List (String × SVal))
  | bin (bytes : List Nat)

/-- `SmileEncoderOptions`, with the defaults applied by the constructor. -/
structure SmileEncOptions where
  sharedStringValues : Bool
  sharedPropertyNames : Bool
  rawBinaryEnabled : Bool

/-- The defaults: `sharedStringValues: false, sharedPropertyNames: true,
rawBinaryEnabled: false`. -/
def defaultEncOptions : SmileEncOptions :=
  ⟨false, true, false⟩

/-- The encoder's shared tables.  The source keeps each table as an array
plus a string-to-index map; entries are inserted only when absent, so the
map is exactly "index of the string in the array", which is how the
embedding looks indices up. -/
structure EncTables where
  sharedValues : List String
  sharedKeys : List String

/-- `Number.isSafeInteger` on an integral value. -/
def isSafeInteger (n : Int) : Bool := n.natAbs ≤ 9007199254740991

/-- `isStringShareable` from `util.ts`: UTF-8 length at most 64 bytes. -/
def isStringShareable (s : String) : Bool := (utf8Encode s).length ≤ 64

/-- `addSharedString` (encoder side): on a full table (1024 entries) drop
the oldest entry and reindex, then push. -/
def encAddSharedString (vs : List String) (s : String) : List String :=
  (if 1024 ≤ vs.length then vs.drop 1 else vs) ++ [s]

/-- `tryWriteSharedString`: look the string up; short references
(index ≤ 31 = `SHARED.MAX_SHORT_REFERENCE`) are one byte `0x01 + index`,
long references are `0xEC` followed by the VInt of `index - 31`. -/
def tryWriteSharedString (vs : List String) (s : String) : Option (List Nat) :=
  match vs.findIdx? (· == s) with
  | none => none
  | some index =>
    if index ≤ 31 then some [0x01 + index]
    else some (0xEC :: writeVIntBytes ((index - 31 : Nat) : Int))

/-- `tryWriteSharedKey`: short references (index ≤ 63) are one byte
`0x40 + index`, long references are `0x30 + ((index-64) >> 8)` then
`(index-64) & 0xff`. -/
def tryWriteSharedKey (ks : List String) (k : String) : Option (List Nat) :=
  match ks.findIdx? (· == k) with
  | none => none
  | some index =>
    if index ≤ 63 then some [0x40 + index]
    else some [0x30 + ((index - 64) >>> 8), (index - 64) &&& 0xff]

/-- `SmileEncoderBase.writeStr` (see the section comment about the source's
unbalanced braces).  Returns the bytes and the updated shared-value table. -/
def writeStr (o : SmileEncOptions) (t : EncTables) (s : String) : List Nat × EncTables :=
  if s = "" then ([0x20], t)
  else
    match (if o.sharedStringValues then tryWriteSharedString t.sharedValues s else none) with
    | some ref => (ref, t)
    | none =>
      let utf8 := utf8Encode s
      let isAscii := utf8.length == jsLength s
      let bytes :=
        if isAscii then
          if jsLength s ≤ 31 then
            if jsLength s = 1 ∧ 0x20 ≤ utf8.getD 0 0 ∧ utf8.getD 0 0 ≤ 0x5F then
              [0x40 + utf8.getD 0 0 - 0x20]
            else (0x60 + jsLength s - 2) :: utf8
          else 0xE0 :: (writeVIntBytes ((utf8.length : Nat) : Int) ++ utf8 ++ [0xFC])
        else
          if jsLength s ≤ 33 then
            if jsLength s = 1 then (0x80 + (utf8.length - 2)) :: utf8
            else (0xA0 + jsLength s - 2) :: utf8
          else 0xE4 :: (writeVIntBytes ((utf8.length : Nat) : Int) ++ utf8 ++ [0xFC])
      if o.sharedStringValues ∧ isStringShareable s then
        (bytes, { t with sharedValues := encAddSharedString t.sharedValues s })
      else (bytes, t)

/-- `SmileEncoderBase.writeKey`. -/
def writeKey (o : SmileEncOptions) (t : EncTables) (k : String) : List Nat × EncTables :=
  if k = "" then ([0x20], t)
  else
    match (if o.sharedPropertyNames then tryWriteSharedKey t.sharedKeys k else none) with
    | some ref => (ref, t)
    | none =>
      let utf8 := utf8Encode k
      let isAscii := utf8.length == jsLength k
      let bytes :=
        if isAscii ∧ jsLength k ≤ 63 then (0x80 + jsLength k - 1) :: utf8
        else if jsLength k ≤ 56 then (0xC0 + jsLength k - 1) :: utf8
        else 0x34 :: (writeVIntBytes ((utf8.length : Nat) : Int) ++ utf8 ++ [0xFC])
      if o.sharedPropertyNames ∧ isStringShareable k then
        (bytes, { t with sharedKeys := encAddSharedString t.sharedKeys k })
      else (bytes, t)

/-- `SmileEncoderBase.writeInteger`: small ints (−16..15) are a single
biased token; other safe integers are `0x24` plus the ZigZag VInt; integers
outside the safe range are written as their decimal string. -/
def writeInteger (o : SmileEncOptions) (t : EncTables) (n : Int) (repr : String) :
    List Nat × EncTables :=
  if -16 ≤ n ∧ n ≤ 15 then ([0xC0 + (n + 16).toNat], t)
  else if isSafeInteger n then (0x24 :: writeVIntBytes (zigzagEncode n), t)
  else writeStr o t repr

mutual

/-- `SmileEncoderBase.writeAny` (on the value model; `number` dispatches to
`writeInteger` since the model carries integral numbers only). -/
def writeAny (o : SmileEncOptions) (t : EncTables) : SVal → List Nat × EncTables
  | .nul => ([0x21], t)
  | .bool b => ([if b then 0x23 else 0x22], t)
  | .int n repr => writeInteger o t n repr
  | .str s => writeStr o t s
  | .bin bs => (writeBinBytes o.rawBinaryEnabled bs, t)
  | .arr items =>
    let (bs, t2) := writeItems o t items
    (0xF8 :: (bs ++ [0xF9]), t2)
  | .obj fields =>
    let (bs, t2) := writeFields o t fields
    (0xFA :: (bs ++ [0xFB]), t2)

/-- The element loop of `writeArr`. -/
def writeItems (o : SmileEncOptions) (t : EncTables) : List SVal → List Nat × EncTables
  | [] => ([], t)
  | v :: vs =>
    let (b1, t1) := writeAny o t v
    let (b2, t2) := writeItems o t1 vs
    (b1 ++ b2, t2)

/-- The entry loop of `writeObj`. -/
def writeFields (o : SmileEncOptions) (t : EncTables) :
    List (String × SVal) → List Nat × EncTables
  | [] => ([], t)
  | (k, v) :: kvs =>
    let (bk, t1) := writeKey o t k
    let (bv, t2) := writeAny o t1 v
    let (br, t3) := writeFields o t2 kvs
    (bk ++ (bv ++ br), t3)

end

/-- `SmileEncoderBase.writeHeader`: `:)\n` then the flags byte. -/
def headerBytes (o : SmileEncOptions) : List Nat :=
  [0x3A, 0x29, 0x0A,
    ((0 ||| (if o.rawBinaryEnabled then 0x04 else 0))
      ||| (if o.sharedStringValues then 0x02 else 0))
      ||| (if o.sharedPropertyNames then 0x01 else 0)]

/-- `SmileEncoder.encode`: header then the value, starting from empty
shared tables. -/
def encodeSmile (o : SmileEncOptions) (v : SVal) : List Nat :=
  headerBytes o ++ (writeAny o ⟨[], []⟩ v).1

end Smile

/-! ## Smile decoder (`SmileDecoderBase.ts`) -/

namespace Smile

open JsBits JsStr

/-- The decoder's output values.  `float32`/`float64` carry the IEEE bit
patterns `decodeFloat32`/`decodeFloat64` reconstruct (the numeric value of
a float is outside the embedding; the claims do not touch floats). -/
inductive DVal where
  | nul
  | bool (b : Bool)
  | int (n : Int)
  | str (s : String)
  | arr (items : List DVal)
  | obj (fields : List (String × DVal))
  | bin (bytes : List Nat)
  | float32 (bits : Nat)
  | float64 (hi lo : Nat)

/-- The decoder's error conditions (`ERROR` in `constants.ts`).
`outOfFuel` is a modelling artifact: the recursion is fuelled, and every
loop iteration consumes at least one input byte, so fuel `input.length + 1`
never runs out. -/
inductive SmileErr where
  | unexpectedEnd
  | invalidHeader
  | unsupportedVersion
  | invalidToken
  | invalidReference
  | outOfFuel
deriving DecidableEq

/-- The header flags plus `maxSharedReferences` (default 1024). -/
structure SmileDecCtx where
  sharedStringValues : Bool
  sharedPropertyNames : Bool
  rawBinaryEnabled : Bool
  maxRefs : Nat

/-- The decoder's shared tables. -/
structure DecTables where
  svals : List String
  skeys : List String
deriving DecidableEq

/-- `Reader.u8`, bounds-checked per spec §3.3. -/
def rdU8 : List Nat → Except SmileErr (Nat × List Nat)
  | [] => .error .unexpectedEnd
  | b :: rest => .ok (b, rest)

/-- `Reader.buf(n)`, bounds-checked per spec §3.3. -/
def rdBuf (n : Nat) (bs : List Nat) : Except SmileErr (List Nat × List Nat) :=
  if n ≤ bs.length then .ok (bs.take n, bs.drop n) else .error .unexpectedEnd

/-- `readVInt` against the bounds-checked reader; a negative length use of
the result is handled at each call site exactly as in `readBinaryBytes`. -/
def rdVInt (bs : List Nat) : Except SmileErr (Int × List Nat) :=
  match readVIntBytes bs with
  | none => .error .unexpectedEnd
  | some r => .ok r

/-- A VInt read where the source immediately uses the value as a length;
negative values (impossible on encoder output) are modelled as a failed
read. -/
def rdVIntLen (bs : List Nat) : Except SmileErr (Nat × List Nat) :=
  match readVIntBytes bs with
  | none => .error .unexpectedEnd
  | some (n, rest) => if 0 ≤ n then .ok (n.toNat, rest) else .error .unexpectedEnd

/-- `SmileDecoderBase.addSharedString`: no-op unless the header enabled
shared string values; on a full table drop the oldest entry, then push. -/
def decAddSharedString (c : SmileDecCtx) (t : DecTables) (s : String) : DecTables :=
  if c.sharedStringValues then
    { t with svals := (if c.maxRefs ≤ t.svals.length then t.svals.drop 1 else t.svals) ++ [s] }
  else t

/-- `SmileDecoderBase.addSharedKey`. -/
def decAddSharedKey (c : SmileDecCtx) (t : DecTables) (k : String) : DecTables :=
  if c.sharedPropertyNames then
    { t with skeys := (if c.maxRefs ≤ t.skeys.length then t.skeys.drop 1 else t.skeys) ++ [k] }
  else t

/-- `readSharedString`: indices at or past the live table size are
`InvalidReference`. -/
def readSharedString (t : DecTables) (index : Nat) : Except SmileErr String :=
  if index < t.svals.length then .ok (t.svals.getD index "") else .error .invalidReference

/-- `readSharedKey`. -/
def readSharedKey (t : DecTables) (index : Nat) : Except SmileErr String :=
  if index < t.skeys.length then .ok (t.skeys.getD index "") else .error .invalidReference

/-- `readString` (used for `BIG_INTEGER`): VInt length, bytes, UTF-8
decode, table add. -/
def readStringD (c : SmileDecCtx) (t : DecTables) (bs : List Nat) :
    Except SmileErr (String × DecTables × List Nat) := do
  let (len, r1) ← rdVIntLen bs
  let (bytes, r2) ← rdBuf len r1
  let s := utf8DecodeStr bytes
  .ok (s, decAddSharedString c t s, r2)

/-- `readLongString`: VInt length, bytes, the `0xFC` end marker, table add. -/
def readLongString (c : SmileDecCtx) (t : DecTables) (bs : List Nat) :
    Except SmileErr (String × DecTables × List Nat) := do
  let (len, r1) ← rdVIntLen bs
  let (bytes, r2) ← rdBuf len r1
  let (endMarker, r3) ← rdU8 r2
  if endMarker ≠ 0xFC then .error .invalidToken
  else
    let s := utf8DecodeStr bytes
    .ok (s, decAddSharedString c t s, r3)

/-- `readLongKey`. -/
def readLongKey (c : SmileDecCtx) (t : DecTables) (bs : List Nat) :
    Except SmileErr (String × DecTables × List Nat) := do
  let (len, r1) ← rdVIntLen bs
  let (bytes, r2) ← rdBuf len r1
  let (endMarker, r3) ← rdU8 r2
  if endMarker ≠ 0xFC then .error .invalidToken
  else
    let k := utf8DecodeStr bytes
    .ok (k, decAddSharedKey c t k, r3)

/-- `decodeFloat32`'s bit reassembly (the IEEE reinterpretation is outside
the embedding; the 32-bit pattern is preserved). -/
def floatBits32 (e : List Nat) : Nat :=
  ((e.getD 0 0 &&& 0x7f) <<< 25) ||| ((e.getD 1 0 &&& 0x7f) <<< 18)
    ||| ((e.getD 2 0 &&& 0x7f) <<< 11) ||| ((e.getD 3 0 &&& 0x7f) <<< 4)
    ||| ((e.getD 4 0 &&& 0x78) >>> 3)

/-- `decodeFloat64`'s two 32-bit words. -/
def floatBits64 (e : List Nat) : Nat × Nat :=
  (((e.getD 0 0 &&& 0x7f) <<< 25) ||| ((e.getD 1 0 &&& 0x7f) <<< 18)
      ||| ((e.getD 2 0 &&& 0x7f) <<< 11) ||| ((e.getD 3 0 &&& 0x7f) <<< 4)
      ||| ((e.getD 4 0 &&& 0x78) >>> 3),
    ((e.getD 4 0 &&& 0x07) <<< 29) ||| ((e.getD 5 0 &&& 0x7f) <<< 22)
      ||| ((e.getD 6 0 &&& 0x7f) <<< 15) ||| ((e.getD 7 0 &&& 0x7f) <<< 8)
      ||| ((e.getD 8 0 &&& 0x7f) <<< 1) ||| ((e.getD 9 0 &&& 0x40) >>> 6))

/-- `obj[key] = value` on the insertion-ordered field list: an existing key
keeps its position and is overwritten, a new key is appended. -/
def objInsert (fields : List (String × DVal)) (k : String) (v : DVal) :
    List (String × DVal) :=
  if fields.any (fun f => f.1 == k) then
    fields.map (fun f => if f.1 == k then (k, v) else f)
  else fields ++ [(k, v)]

/-- `readKeyByToken`. -/
def readKeyByToken (c : SmileDecCtx) (t : DecTables) (token : Nat) (bs : List Nat) :
    Except SmileErr (String × DecTables × List Nat) :=
  if token = 0x20 then .ok ("", t, bs)
  else if 0x40 ≤ token ∧ token ≤ 0x7F then do
    let k ← readSharedKey t (token - 0x40)
    .ok (k, t, bs)
  else if 0x30 ≤ token ∧ token ≤ 0x33 then do
    let highByte := token - 0x30
    let (lowByte, r1) ← rdU8 bs
    let index := (highByte <<< 8) ||| (lowByte + 64)
    let k ← readSharedKey t index
    .ok (k, t, r1)
  else if 0x80 ≤ token ∧ token ≤ 0xBF then do
    let len := token - 0x80 + 1
    let (bytes, r1) ← rdBuf len bs
    let k := utf8DecodeStr bytes
    .ok (k, decAddSharedKey c t k, r1)
  else if 0xC0 ≤ token ∧ token ≤ 0xF7 then do
    let len := token - 0xC0 + 1
    let (bytes, r1) ← rdBuf len bs
    let k := utf8DecodeStr bytes
    .ok (k, decAddSharedKey c t k, r1)
  else if token = 0x34 then readLongKey c t bs
  else .error .invalidToken

/-- `SmileDecoderBase.readValueByToken`, with the recursive entry points
for arrays and objects passed in explicitly (`goArr`, `goObj`), so that the
`val`/`readValueByToken`/`readArray`/`readObject` recursion can be driven by
a single structurally-fuelled function (`decStep`). -/
def readValueByTokenG (goArr goObj : DecTables → List Nat →
      Except SmileErr (DVal × DecTables × List Nat))
    (c : SmileDecCtx) (t : DecTables) (token : Nat) (bs : List Nat) :
    Except SmileErr (DVal × DecTables × List Nat) :=
  if 0x01 ≤ token ∧ token ≤ 0x1F then do
    let s ← readSharedString t (token - 0x01)
    .ok (.str s, t, bs)
  else if token = 0x20 then .ok (.str "", t, bs)
  else if token = 0x21 then .ok (.nul, t, bs)
  else if token = 0x22 then .ok (.bool false, t, bs)
  else if token = 0x23 then .ok (.bool true, t, bs)
  else if token = 0x24 ∨ token = 0x25 then do
    let (v, r1) ← rdVInt bs
    .ok (.int (zigzagDecode v), t, r1)
  else if token = 0x26 then do
    let (s, t1, r1) ← readStringD c t bs
    .ok (.str s, t1, r1)
  else if token = 0x28 then do
    let (bytes, r1) ← rdBuf 5 bs
    .ok (.float32 (floatBits32 bytes), t, r1)
  else if token = 0x29 then do
    let (bytes, r1) ← rdBuf 10 bs
    .ok (.float64 (floatBits64 bytes).1 (floatBits64 bytes).2, t, r1)
  else if token = 0xE0 ∨ token = 0xE4 then do
    let (s, t1, r1) ← readLongString c t bs
    .ok (.str s, t1, r1)
  else if token = 0xE8 then
    match readBinaryBytes bs with
    | none => .error .unexpectedEnd
    | some (bytes, r1) => .ok (.bin bytes, t, r1)
  else if token = 0xFD then do
    let (len, r1) ← rdVIntLen bs
    let (bytes, r2) ← rdBuf len r1
    .ok (.bin bytes, t, r2)
  else if token = 0xEC then do
    let (offset, r1) ← rdVIntLen bs
    let s ← readSharedString t (offset + 31)
    .ok (.str s, t, r1)
  else if token = 0xF8 then goArr t bs
  else if token = 0xFA then goObj t bs
  else if 0x40 ≤ token ∧ token ≤ 0x5F then
    .ok (.str (String.mk [Char.ofNat (token - 0x40 + 0x20)]), t, bs)
  else if 0x60 ≤ token ∧ token ≤ 0x7F then do
    let len := token - 0x60 + 2
    let (bytes, r1) ← rdBuf len bs
    let s := utf8DecodeStr bytes
    .ok (.str s, decAddSharedString c t s, r1)
  else if 0x80 ≤ token ∧ token ≤ 0x9F then do
    let byteLength := token - 0x80 + 2
    let (bytes, r1) ← rdBuf byteLength bs
    let s := utf8DecodeStr bytes
    .ok (.str s, decAddSharedString c t s, r1)
  else if 0xA0 ≤ token ∧ token ≤ 0xBF then do
    let charLength := token - 0xA0 + 2
    let (bytes, r1) ← rdBuf charLength bs
    let s := utf8DecodeStr bytes
    .ok (.str s, decAddSharedString c t s, r1)
  else if 0xC0 ≤ token ∧ token ≤ 0xDF then
    .ok (.int ((token : Int) - 0xC0 - 16), t, bs)
  else .error .invalidToken

/-- The decoder's control modes: reading one value (`val`), inside the
element loop of `readArray`, or inside the entry loop of `readObject`. -/
inductive DecMode where
  | val
  | arrLoop (acc : List DVal)
  | objLoop (acc : List (String × DVal))

/-- The mutual recursion of `val` / `readValueByToken` / `readArray` /
`readObject`, merged over a mode tag so the recursion is structural in the
fuel.  Every recursive call is preceded by at least one `u8` read, so fuel
`input.length + 1` never runs out. -/
def decStep (c : SmileDecCtx) : Nat → DecMode → DecTables → List Nat →
    Except SmileErr (DVal × DecTables × List Nat)
  | 0, _, _, _ => .error .outOfFuel
  | fuel + 1, .val, t, bs => do
    let (token, r) ← rdU8 bs
    readValueByTokenG (fun t2 bs2 => decStep c fuel (.arrLoop []) t2 bs2)
      (fun t2 bs2 => decStep c fuel (.objLoop []) t2 bs2) c t token r
  | fuel + 1, .arrLoop acc, t, bs => do
    let (token, r) ← rdU8 bs
    if token = 0xF9 then .ok (.arr acc, t, r)
    else do
      let (v, t1, r1) ← readValueByTokenG
        (fun t2 bs2 => decStep c fuel (.arrLoop []) t2 bs2)
        (fun t2 bs2 => decStep c fuel (.objLoop []) t2 bs2) c t token r
      decStep c fuel (.arrLoop (acc ++ [v])) t1 r1
  | fuel + 1, .objLoop acc, t, bs => do
    let (keyToken, r) ← rdU8 bs
    if keyToken = 0xFB then .ok (.obj acc, t, r)
    else do
      let (k, t1, r1) ← readKeyByToken c t keyToken r
      let (v, t2, r2) ← decStep c fuel .val t1 r1
      decStep c fuel (.objLoop (objInsert acc k v)) t2 r2

/-- `SmileDecoderBase.val`: one token byte, then dispatch. -/
def valD (c : SmileDecCtx) (fuel : Nat) (t : DecTables) (bs : List Nat) :
    Except SmileErr (DVal × DecTables × List Nat) :=
  decStep c fuel .val t bs

/-- `SmileDecoderBase.readValueByToken` at a given fuel. -/
def readValueByToken (c : SmileDecCtx) (fuel : Nat) (t : DecTables) (token : Nat)
    (bs : List Nat) : Except SmileErr (DVal × DecTables × List Nat) :=
  readValueByTokenG (fun t2 bs2 => decStep c fuel (.arrLoop []) t2 bs2)
    (fun t2 bs2 => decStep c fuel (.objLoop []) t2 bs2) c t token bs

/-- `SmileDecoderBase.readHeader`: the three magic bytes, then the flags
byte; version bits (4–7) must be zero. -/
def readHeaderD (maxRefs : Nat) (bs : List Nat) :
    Except SmileErr (SmileDecCtx × List Nat) := do
  let (b0, r0) ← rdU8 bs
  let (b1, r1) ← rdU8 r0
  let (b2, r2) ← rdU8 r1
  if b0 ≠ 0x3A ∨ b1 ≠ 0x29 ∨ b2 ≠ 0x0A then .error .invalidHeader
  else do
    let (flags, r3) ← rdU8 r2
    if (flags &&& 0xF0) >>> 4 ≠ 0 then .error .unsupportedVersion
    else
      .ok (⟨flags &&& 0x02 ≠ 0, flags &&& 0x01 ≠ 0, flags &&& 0x04 ≠ 0, maxRefs⟩, r3)

/-- `SmileDecoder.decode` with the default `maxSharedReferences = 1024`:
parse the header, then one value.  The fuel `input.length + 1` is always
sufficient because every recursion step first consumes a byte. -/
def decodeSmile (input : List Nat) : Except SmileErr DVal := do
  let (c, r) ← readHeaderD 1024 input
  let (v, _, _) ← valD c (input.length + 1) ⟨[], []⟩ r
  .ok v

end Smile

namespace Smile

open JsBits JsStr

theorem writeVIntBytes_c8_pos : writeVIntBytes (zigzagEncode 2147483647) = [0xBE] := by
  have hz : zigzagEncode 2147483647 = 4294967294 := by decide
  rw [hz, writeVIntBytes, if_neg (by norm_num)]
  have h1 : jsShr (4294967294 : Int) 6 = -1 := by decide
  have h2 : jsAndNat (4294967294 : Int) 0x3f = 62 := by decide
  have h3 : vintCont (-1 : Int) = [] := by
    rw [vintCont]
    norm_num
  rw [h1, h2, h3]
  rfl

theorem writeVIntBytes_c8_neg : writeVIntBytes (zigzagEncode (-2147483647)) = [0xBD] := by
  have hz : zigzagEncode (-2147483647) = 4294967293 := by decide
  rw [hz, writeVIntBytes, if_neg (by norm_num)]
  have h1 : jsShr (4294967293 : Int) 6 = -1 := by decide
  have h2 : jsAndNat (4294967293 : Int) 0x3f = 61 := by decide
  have h3 : vintCont (-1 : Int) = [] := by
    rw [vintCont]
    norm_num
  rw [h1, h2, h3]
  rfl

end Smile

/-- **C8** (code bug).  `±(2^31 − 1)` are safe integers, so the Smile
encoder takes the `INT_32` + ZigZag-VInt path — but `writeVInt` applies
JavaScript's 32-bit `&`/`>>` to the ZigZag value `2^32 − 2` (resp.
`2^32 − 3`), truncating it to a single VInt byte.  Encoding `2^31 − 1`
yields the document `3A 29 0A 01 24 BE`, which decodes to `31`, not
`2147483647`; encoding `−(2^31 − 1)` decodes to `−31`.  The round-trip the
claim (and the spec's boundary-behavior table) requires fails. -/
theorem smile_c8_max_int_roundtrip_bug :
    Smile.encodeSmile Smile.defaultEncOptions (.int 2147483647 "2147483647")
      = [0x3A, 0x29, 0x0A, 0x01, 0x24, 0xBE] ∧
    Smile.decodeSmile [0x3A, 0x29, 0x0A, 0x01, 0x24, 0xBE] = .ok (.int 31) ∧
    Smile.encodeSmile Smile.defaultEncOptions (.int (-2147483647) "-2147483647")
      = [0x3A, 0x29, 0x0A, 0x01, 0x24, 0xBD] ∧
    Smile.decodeSmile [0x3A, 0x29, 0x0A, 0x01, 0x24, 0xBD] = .ok (.int (-31)) ∧
    ((31 : Int) ≠ 2147483647 ∧ (-31 : Int) ≠ -2147483647) := by
  refine ⟨?_, rfl, ?_, rfl, by norm_num⟩
  · show Smile.headerBytes _ ++ (Smile.writeInteger _ _ _ _).1 = _
    rw [Smile.writeInteger, if_neg (by norm_num), if_pos (by decide)]
    rw [Smile.writeVIntBytes_c8_pos]
    rfl
  · show Smile.headerBytes _ ++ (Smile.writeInteger _ _ _ _).1 = _
    rw [Smile.writeInteger, if_neg (by norm_num), if_pos (by decide)]
    rw [Smile.writeVIntBytes_c8_neg]
    rfl

/-- **C1** (code bug).  The encoder appends every shareable literal string
to its table — including one-character ASCII strings written with a
`TINY_ASCII` token — but the decoder's `TINY_ASCII` branch
(`readByTokenRange`) returns `String.fromCharCode(...)` **without** calling
`addSharedString`.  Encoding `["!", "!"]` with shared string values enabled
emits the tiny-ASCII literal and then a short shared reference to index 0;
the decoder's value table is still empty at that point, so decoding fails
with `InvalidReference` — on a document the encoder itself produced. -/
theorem smile_c1_shared_table_asymmetry_bug :
    Smile.encodeSmile ⟨true, true, false⟩ (.arr [.str "!", .str "!"])
      = [0x3A, 0x29, 0x0A, 0x03, 0xF8, 0x41, 0x01, 0xF9] ∧
    (Smile.writeAny ⟨true, true, false⟩ ⟨[], []⟩
      (.arr [.str "!", .str "!"])).2.sharedValues = ["!"] ∧
    Smile.decodeSmile [0x3A, 0x29, 0x0A, 0x03, 0xF8, 0x41, 0x01, 0xF9]
      = .error .invalidReference := by
  exact ⟨rfl, rfl, rfl⟩

/-- **C2, counterexample.**  The claim says the VInt after the `0xE8` token
holds the *original* (pre-encoding) byte length.  For the one-byte input
`[0x00]` the encoder writes `E8 82 00 00`: the VInt `0x82` decodes to 2 —
the 7-bit-encoded length — not the original length 1. -/
theorem smile_c2_writeBin_length_cex :
    Smile.writeBinBytes false [0x00] = [0xE8, 0x82, 0x00, 0x00] ∧
    Smile.readVIntBytes [0x82, 0x00, 0x00] = some ((2 : Int), [0x00, 0x00]) ∧
    ([0x00] : List Nat).length = 1 ∧ (2 : Int) ≠ 1 := by
  refine ⟨?_, by decide, by decide, by norm_num⟩
  have henc : Smile.encodeSafeBinary [0x00] = [0x00, 0x00] := by decide
  have hv : Smile.writeVIntBytes ((2 : Nat) : Int) = [0x82] := by
    rw [Smile.writeVIntBytes_eval 2 (by norm_num) (by norm_num)]
    decide
  unfold Smile.writeBinBytes
  rw [if_neg (by simp), henc]
  show 0xE8 :: (Smile.writeVIntBytes ((2 : Nat) : Int) ++ [0x00, 0x00]) = _
  rw [hv]
  rfl

/-- **C2 (amended).**  In the default (non-raw) binary mode the token
`0xE8` is followed by a VInt holding the **7-bit-encoded** byte length
`⌈8n/7⌉`, which precedes the encoded payload; the decoder reads that VInt
as the encoded length and *derives* the original length as
`⌊(encoded length)·7/8⌋`, which equals the original `n`, so the payload
decodes back to the input. -/
theorem smile_c2_writeBin_framing (b : List Nat) (hb : ∀ x ∈ b, x < 256)
    (hlen : 8 * b.length < 2 ^ 31) :
    Smile.writeBinBytes false b
      = 0xE8 :: (Smile.writeVIntBytes (((Smile.encodeSafeBinary b).length : Nat) : Int)
          ++ Smile.encodeSafeBinary b) ∧
    (∀ rest, Smile.readVIntBytes
        (Smile.writeVIntBytes (((Smile.encodeSafeBinary b).length : Nat) : Int) ++ rest)
      = some ((((Smile.encodeSafeBinary b).length : Nat) : Int), rest)) ∧
    (Smile.encodeSafeBinary b).length = (8 * b.length + 6) / 7 ∧
    (Smile.encodeSafeBinary b).length * 7 / 8 = b.length ∧
    Smile.decodeSafeBinary (Smile.encodeSafeBinary b)
      ((Smile.encodeSafeBinary b).length * 7 / 8) = b := by
  have hsz : (Smile.encodeSafeBinary b).length = Smile.safeBinSize b.length :=
    Smile.encodeSafeBinary_length b
  have hm : (Smile.encodeSafeBinary b).length < 2 ^ 31 := by
    rw [hsz]
    unfold Smile.safeBinSize
    omega
  refine ⟨?_, fun rest => Smile.readVInt_writeVInt _ hm rest, ?_, ?_, ?_⟩
  · unfold Smile.writeBinBytes
    rw [if_neg (by simp)]
  · rw [hsz]
    unfold Smile.safeBinSize
    ring_nf
  · rw [hsz, Smile.safeBinSize_derived]
  · rw [hsz, Smile.safeBinSize_derived]
    exact Smile.decodeSafeBinary_encodeSafeBinary b hb

/-- Witness for `smile_c2_writeBin_framing` at `b = [0x00]`. -/
theorem smile_c2_writeBin_framing_witness :
    (∀ x ∈ [0x00], x < 256) ∧ 8 * ([0x00] : List Nat).length < 2 ^ 31 ∧
    (Smile.writeBinBytes false [0x00]
      = 0xE8 :: (Smile.writeVIntBytes (((Smile.encodeSafeBinary [0x00]).length : Nat) : Int)
          ++ Smile.encodeSafeBinary [0x00]) ∧
    (∀ rest, Smile.readVIntBytes
        (Smile.writeVIntBytes (((Smile.encodeSafeBinary [0x00]).length : Nat) : Int) ++ rest)
      = some ((((Smile.encodeSafeBinary [0x00]).length : Nat) : Int), rest)) ∧
    (Smile.encodeSafeBinary [0x00]).length = (8 * ([0x00] : List Nat).length + 6) / 7 ∧
    (Smile.encodeSafeBinary [0x00]).length * 7 / 8 = ([0x00] : List Nat).length ∧
    Smile.decodeSafeBinary (Smile.encodeSafeBinary [0x00])
      ((Smile.encodeSafeBinary [0x00]).length * 7 / 8) = [0x00]) :=
  ⟨by decide, by decide, smile_c2_writeBin_framing [0x00] (by decide) (by decide)⟩

namespace Smile

open JsBits JsStr

theorem jsLength_ascii (s : String) (h : ∀ c ∈ s.data, c.toNat < 0x80) :
    jsLength s = s.data.length := by
  unfold jsLength
  obtain ⟨cs⟩ := s
  induction cs with
  | nil => rfl
  | cons c cs ih =>
    have hc := h c (List.mem_cons_self c cs)
    have := ih (fun x hx => h x (List.mem_cons_of_mem c hx))
    simp only [List.map_cons, List.sum_cons, List.length_cons]
    rw [if_pos (by omega)]
    simp at this ⊢
    omega

/-- `writeStr` on an ASCII string of 2..31 characters with shared string
values disabled: the `SHORT_ASCII` token then the bytes, tables unchanged. -/
theorem writeStr_shortAscii (t : EncTables) (s : String)
    (h2 : 2 ≤ s.data.length) (h31 : s.data.length ≤ 31)
    (hascii : ∀ c ∈ s.data, c.toNat < 0x80) :
    writeStr defaultEncOptions t s = ((0x60 + s.data.length - 2) :: utf8Encode s, t) := by
  have hne : s ≠ "" := by
    intro h
    subst h
    simp at h2
  have hlen : (utf8Encode s).length = jsLength s := utf8_length_ascii s hascii
  have hjs : jsLength s = s.data.length := jsLength_ascii s hascii
  have hsh : defaultEncOptions.sharedStringValues = false := rfl
  unfold writeStr
  rw [if_neg hne]
  simp only [hsh, Bool.false_eq_true, if_false, false_and]
  rw [hlen, hjs]
  simp only [beq_self_eq_true, if_true]
  rw [if_pos h31]
  rw [if_neg (by omega : ¬(s.data.length = 1 ∧ 0x20 ≤ (utf8Encode s).getD 0 0
    ∧ (utf8Encode s).getD 0 0 ≤ 0x5F))]

/-- The token-dispatch chain of `readValueByToken` lands in the
`SHORT_ASCII` branch for tokens `0x60..0x7F`. -/
theorem readValueByTokenG_shortAscii (goArr goObj : DecTables → List Nat →
      Except SmileErr (DVal × DecTables × List Nat))
    (c : SmileDecCtx) (t : DecTables) (token : Nat) (bs : List Nat)
    (h1 : 0x60 ≤ token) (h2 : token ≤ 0x7F) :
    readValueByTokenG goArr goObj c t token bs =
      (do
        let len := token - 0x60 + 2
        let (bytes, r1) ← rdBuf len bs
        let s := utf8DecodeStr bytes
        .ok (.str s, decAddSharedString c t s, r1)) := by
  unfold readValueByTokenG
  rw [if_neg (by omega : ¬ (0x01 ≤ token ∧ token ≤ 0x1F)),
    if_neg (by omega : ¬ token = 0x20),
    if_neg (by omega : ¬ token = 0x21),
    if_neg (by omega : ¬ token = 0x22),
    if_neg (by omega : ¬ token = 0x23),
    if_neg (by omega : ¬ (token = 0x24 ∨ token = 0x25)),
    if_neg (by omega : ¬ token = 0x26),
    if_neg (by omega : ¬ token = 0x28),
    if_neg (by omega : ¬ token = 0x29),
    if_neg (by omega : ¬ (token = 0xE0 ∨ token = 0xE4)),
    if_neg (by omega : ¬ token = 0xE8),
    if_neg (by omega : ¬ token = 0xFD),
    if_neg (by omega : ¬ token = 0xEC),
    if_neg (by omega : ¬ token = 0xF8),
    if_neg (by omega : ¬ token = 0xFA),
    if_neg (by omega : ¬ (0x40 ≤ token ∧ token ≤ 0x5F)),
    if_pos (by omega : 0x60 ≤ token ∧ token ≤ 0x7F)]

/-- Decoding a default-flags document reduces to `val` on the body. -/
theorem decodeSmile_default_header (rest : List Nat) :
    decodeSmile ([0x3A, 0x29, 0x0A, 0x01] ++ rest)
      = (do
          let (v, _, _) ← valD ⟨false, true, false, 1024⟩ (rest.length + 5) ⟨[], []⟩ rest
          pure v) := rfl

end Smile

namespace Smile

open JsStr

theorem except_bind_ok {ε α β : Type} (a : α) (f : α → Except ε β) :
    (Except.ok (ε := ε) a >>= f) = f a := rfl

theorem decStep_val_succ (c : SmileDecCtx) (fuel : Nat) (t : DecTables) (bs : List Nat) :
    decStep c (fuel + 1) .val t bs =
      (do
        let (token, r) ← rdU8 bs
        readValueByTokenG (fun t2 bs2 => decStep c fuel (.arrLoop []) t2 bs2)
          (fun t2 bs2 => decStep c fuel (.objLoop []) t2 bs2) c t token r) := rfl

/-- C10: an integral number outside the safe-integer range (|n| > 2^53−1)
is not written with an integer token: `writeInteger` falls through to
`writeStr` on the decimal representation `n.toString()`, so the document
decodes to a *string* value.  Stated for representations of 2..31 ASCII
characters (every unsafe integer in scientific-notation-free decimal form
has at least 17 and at most 21 characters, so this covers them all);
no error is raised and no wide-integer carrier is used. -/
theorem smile_c10_unsafe_int_becomes_string (n : Int) (r : String)
    (hn : isSafeInteger n = false)
    (h2 : 2 ≤ r.data.length) (h31 : r.data.length ≤ 31)
    (hascii : ∀ c ∈ r.data, c.toNat < 0x80) :
    (∀ t : EncTables, writeInteger defaultEncOptions t n r = writeStr defaultEncOptions t r) ∧
    encodeSmile defaultEncOptions (.int n r)
      = [0x3A, 0x29, 0x0A, 0x01, 0x60 + r.data.length - 2] ++ utf8Encode r ∧
    decodeSmile (encodeSmile defaultEncOptions (.int n r)) = .ok (.str r) := by
  have hn' : ¬ (n.natAbs ≤ 9007199254740991) := by
    simpa [isSafeInteger] using hn
  have hint : ∀ t : EncTables,
      writeInteger defaultEncOptions t n r = writeStr defaultEncOptions t r := by
    intro t
    unfold writeInteger
    rw [if_neg (by omega : ¬(-16 ≤ n ∧ n ≤ 15)), hn]
    simp
  have hulen : (utf8Encode r).length = r.data.length := by
    rw [utf8_length_ascii r hascii, jsLength_ascii r hascii]
  have henc : encodeSmile defaultEncOptions (.int n r)
      = [0x3A, 0x29, 0x0A, 0x01] ++ ((0x60 + r.data.length - 2) :: utf8Encode r) := by
    have h1 : writeAny defaultEncOptions ⟨[], []⟩ (.int n r)
        = writeInteger defaultEncOptions ⟨[], []⟩ n r := rfl
    unfold encodeSmile
    rw [h1, hint ⟨[], []⟩, writeStr_shortAscii ⟨[], []⟩ r h2 h31 hascii]
    rfl
  refine ⟨hint, henc, ?_⟩
  rw [henc, decodeSmile_default_header]
  have hfuel : ((0x60 + r.data.length - 2) :: utf8Encode r).length + 5
      = ((utf8Encode r).length + 5) + 1 := by
    simp
  rw [hfuel]
  unfold valD
  rw [decStep_val_succ]
  rw [show rdU8 ((0x60 + r.data.length - 2) :: utf8Encode r)
    = Except.ok (0x60 + r.data.length - 2, utf8Encode r) from rfl]
  rw [except_bind_ok]
  simp only
  rw [readValueByTokenG_shortAscii _ _ _ _ _ _ (by omega) (by omega)]
  simp only
  rw [show 0x60 + r.data.length - 2 - 0x60 + 2 = r.data.length from by omega]
  have hbuf : rdBuf r.data.length (utf8Encode r) = .ok (utf8Encode r, []) := by
    unfold rdBuf
    rw [if_pos (by omega : r.data.length ≤ (utf8Encode r).length)]
    rw [← hulen, List.take_length, List.drop_length]
  rw [hbuf, except_bind_ok]
  simp only
  rw [utf8Decode_utf8Encode_ascii r hascii]
  rfl

/-- Witness for C10 at n = 2^53 with its decimal representation. -/
theorem smile_c10_unsafe_int_becomes_string_witness :
    isSafeInteger 9007199254740992 = false ∧
    2 ≤ "9007199254740992".data.length ∧
    "9007199254740992".data.length ≤ 31 ∧
    (∀ c ∈ "9007199254740992".data, c.toNat < 0x80) ∧
    decodeSmile (encodeSmile defaultEncOptions (.int 9007199254740992 "9007199254740992"))
      = .ok (.str "9007199254740992") :=
  ⟨by decide, by decide, by decide, by decide,
    (smile_c10_unsafe_int_becomes_string 9007199254740992 "9007199254740992"
      (by decide) (by decide) (by decide) (by decide)).2.2⟩

end Smile

/-! ## JSON decoder (`JsonDecoderPartial`, `src/unnamed/part_019`)

The partial decoder's `readArr` / `readObj` are translated from the source.
The strict base class `JsonDecoder` (its `readAny`, `skipWhitespace` and
`readKey`) is not among the repository files; it is modelled from the
spec's §4.6: a whitespace-skipping recursive descent over UTF-8 bytes with
`__proto__` keys rejected as a fatal parse error.  The model restricts
numbers to integers and strings to escape-free content, which covers every
input the claims mention. -/

namespace Json

open JsStr

/-- The JSON value model (numbers restricted to integers). -/
inductive JVal where
  | nul
  | bool (b : Bool)
  | num (n : Int)
  | str (s : String)
  | arr (items : List JVal)
  | obj (fields : List (String × JVal))

/-- `invalidJson` is the scanner's `Error('Invalid JSON')`; `outOfFuel` is
the model's stand-in for any other (fatal) abort, which the partial
variant's `catch` re-throws. -/
inductive JErr where
  | invalidJson
  | outOfFuel
deriving DecidableEq

def isWs (c : Nat) : Bool := c == 0x20 || c == 0x09 || c == 0x0A || c == 0x0D

/-- Modelled from the spec: `skipWhitespace`. -/
def skipWs (bs : List Nat) : List Nat := bs.dropWhile isWs

def isDigit (c : Nat) : Bool := 0x30 ≤ c && c ≤ 0x39

/-- Digit run of an integer literal, most significant first. -/
def readDigits (acc : Nat) : List Nat → Nat × List Nat
  | [] => (acc, [])
  | c :: rest =>
    if isDigit c then readDigits (acc * 10 + (c - 0x30)) rest else (acc, c :: rest)

def readKeyAux (acc : List Nat) : List Nat → Except JErr (List Nat × List Nat)
  | [] => .error .invalidJson
  | c :: rest => if c = 0x22 then .ok (acc, rest) else readKeyAux (acc ++ [c]) rest

/-- Modelled from the spec: `readKey` — the bytes up to the closing quote
(escape-free), decoded as UTF-8.  The opening quote is consumed by the
caller. -/
def readKey (bs : List Nat) : Except JErr (String × List Nat) :=
  match readKeyAux [] bs with
  | .ok (cs, rest) => .ok (utf8DecodeStr cs, rest)
  | .error e => .error e

/-- JavaScript `obj[key] = value`: replace in place or append. -/
def jobjInsert (acc : List (String × JVal)) (k : String) (v : JVal) :
    List (String × JVal) :=
  if acc.any (fun p => p.1 == k) then
    acc.map (fun p => if p.1 == k then (k, v) else p)
  else acc ++ [(k, v)]

/-- The decoder's control modes: one value (`val`), the strict array and
object entry loops (modelled from the spec), and the partial variant's
loops `arrP` / `objP` translated from `JsonDecoderPartial.readArr` /
`readObj`. -/
inductive JMode where
  | val
  | arrS (first : Bool) (acc : List JVal)
  | objS (first : Bool) (acc : List (String × JVal))
  | arrP (acc : List JVal)
  | objP (acc : List (String × JVal))

/-- The recursive descent, fuel-structural; `partial'` selects the loops
the dynamic dispatch of `this.readArr()` / `this.readObj()` lands in.
Reading past the end of the `Uint8Array` yields `undefined` in the source,
which matches no expected character: the `[]` cases mirror that. -/
def jstep (partial' : Bool) : Nat → JMode → List Nat → Except JErr (JVal × List Nat)
  | 0, _, _ => .error .outOfFuel
  | fuel + 1, .val, bs =>
    match skipWs bs with
    | [] => .error .invalidJson
    | c :: rest =>
      if c = 0x5B then
        jstep partial' fuel (if partial' then .arrP [] else .arrS true []) rest
      else if c = 0x7B then
        jstep partial' fuel (if partial' then .objP [] else .objS true []) rest
      else if c = 0x22 then
        match readKey rest with
        | .ok (s, r) => .ok (.str s, r)
        | .error e => .error e
      else if c = 0x6E then
        if rest.take 3 = [0x75, 0x6C, 0x6C] then .ok (.nul, rest.drop 3)
        else .error .invalidJson
      else if c = 0x74 then
        if rest.take 3 = [0x72, 0x75, 0x65] then .ok (.bool true, rest.drop 3)
        else .error .invalidJson
      else if c = 0x66 then
        if rest.take 4 = [0x61, 0x6C, 0x73, 0x65] then .ok (.bool false, rest.drop 4)
        else .error .invalidJson
      else if c = 0x2D then
        match rest with
        | d :: r2 =>
          if isDigit d then
            let (m, r3) := readDigits (d - 0x30) r2
            .ok (.num (-(m : Int)), r3)
          else .error .invalidJson
        | [] => .error .invalidJson
      else if isDigit c then
        let (m, r) := readDigits (c - 0x30) rest
        .ok (.num (m : Int), r)
      else .error .invalidJson
  | fuel + 1, .arrS first acc, bs =>
    match skipWs bs with
    | [] => .error .invalidJson
    | c :: rest =>
      if c = 0x5D then .ok (.arr acc, rest)
      else
        match (if first then some (c :: rest)
          else if c = 0x2C then some rest else none) with
        | none => .error .invalidJson
        | some bs2 =>
          match jstep partial' fuel .val bs2 with
          | .ok (v, r1) => jstep partial' fuel (.arrS false (acc ++ [v])) r1
          | .error e => .error e
  | fuel + 1, .objS first acc, bs =>
    match skipWs bs with
    | [] => .error .invalidJson
    | c :: rest =>
      if c = 0x7D then .ok (.obj acc, rest)
      else
        match (if first then some (c :: rest)
          else if c = 0x2C then some (skipWs rest) else none) with
        | none => .error .invalidJson
        | some bs2 =>
          match bs2 with
          | [] => .error .invalidJson
          | c2 :: r2 =>
            if c2 = 0x22 then
              match readKey r2 with
              | .error e => .error e
              | .ok (k, r3) =>
                if k = "__proto__" then .error .invalidJson
                else
                  match skipWs r3 with
                  | 0x3A :: r4 =>
                    match jstep partial' fuel .val r4 with
                    | .error e => .error e
                    | .ok (v, r5) =>
                      jstep partial' fuel (.objS false (jobjInsert acc k v)) r5
                  | _ => .error .invalidJson
            else .error .invalidJson
  | fuel + 1, .arrP acc, bs =>
    match skipWs bs with
    | [] =>
      match jstep partial' fuel .val [] with
      | .ok (v, r1) => jstep partial' fuel (.arrP (acc ++ [v])) r1
      | .error .invalidJson => .ok (.arr acc, [])
      | .error e => .error e
    | c :: rest =>
      if c = 0x5D then .ok (.arr acc, rest)
      else if c = 0x2C then jstep partial' fuel (.arrP acc) rest
      else
        match jstep partial' fuel .val (c :: rest) with
        | .ok (v, r1) => jstep partial' fuel (.arrP (acc ++ [v])) r1
        | .error .invalidJson => .ok (.arr acc, c :: rest)
        | .error e => .error e
  | fuel + 1, .objP acc, bs =>
    match skipWs bs with
    | [] => .ok (.obj acc, [])
    | c :: rest =>
      if c = 0x7D then .ok (.obj acc, rest)
      else if c = 0x2C then jstep partial' fuel (.objP acc) rest
      else if c ≠ 0x22 then .ok (.obj acc, c :: rest)
      else
        match readKey rest with
        | .error .invalidJson => .ok (.obj acc, c :: rest)
        | .error e => .error e
        | .ok (k, r3) =>
          if k = "__proto__" then .ok (.obj acc, c :: rest)
          else
            match skipWs r3 with
            | 0x3A :: r4 =>
              match jstep partial' fuel .val r4 with
              | .ok (v, r5) => jstep partial' fuel (.objP (jobjInsert acc k v)) r5
              | .error .invalidJson => .ok (.obj acc, c :: rest)
              | .error e => .error e
            | _ => .ok (.obj acc, c :: rest)

/-- `JsonDecoder.decode` (strict): one value; trailing bytes are ignored.
Fuel `2·length + 2` suffices: a recursion step that consumes no byte is
always followed by one that does. -/
def decodeJson (bs : List Nat) : Except JErr JVal :=
  match jstep false (2 * bs.length + 2) .val bs with
  | .ok (v, _) => .ok v
  | .error e => .error e

/-- `JsonDecoderPartial.decode`. -/
def decodeJsonPartial (bs : List Nat) : Except JErr JVal :=
  match jstep true (2 * bs.length + 2) .val bs with
  | .ok (v, _) => .ok v
  | .error e => .error e

end Json

namespace Json

/-- The partial array loop can only end by returning the accumulated
array, by running out of fuel, or by propagating a non-`invalidJson`
error: the `catch` converts every `invalidJson` into the partial result. -/
theorem jstep_arrP_ne_invalidJson (fuel : Nat) :
    ∀ acc bs, jstep true fuel (.arrP acc) bs ≠ .error .invalidJson := by
  induction fuel with
  | zero =>
    intro acc bs h
    simp [jstep] at h
  | succ fuel ih =>
    intro acc bs h
    rw [jstep] at h
    rcases hws : skipWs bs with _ | ⟨c, rest⟩ <;> rw [hws] at h <;> simp only [] at h <;>
      repeat' split at h
    all_goals first
      | exact ih _ _ h
      | (simp at h
         done)
      | (simp at h
         rename_i hno _
         exact hno h)

/-- Same for the partial object loop. -/
theorem jstep_objP_ne_invalidJson (fuel : Nat) :
    ∀ acc bs, jstep true fuel (.objP acc) bs ≠ .error .invalidJson := by
  induction fuel with
  | zero =>
    intro acc bs h
    simp [jstep] at h
  | succ fuel ih =>
    intro acc bs h
    rw [jstep] at h
    rcases hws : skipWs bs with _ | ⟨c, rest⟩ <;> rw [hws] at h <;> simp only [] at h <;>
      repeat' split at h
    all_goals first
      | exact ih _ _ h
      | (simp at h
         done)
      | (simp at h
         rename_i hno _
         exact hno h)

/-- C5: the partial JSON decoder recovers inside containers.  The bytes of
`[1, 2, 3` decode to the array `[1, 2, 3]`; the bytes of `{"a": 1, "b":`
decode to the object `{"a": 1}`; repeated and trailing commas (bytes of
`[1,,2,`) yield no element; and the partial array and object loops never
propagate an `Invalid JSON` error at any fuel, accumulator and input —
the recovery `catch` turns each one into the partial container. -/
theorem json_c5_partial_recovery :
    decodeJsonPartial [0x5B, 0x31, 0x2C, 0x20, 0x32, 0x2C, 0x20, 0x33]
      = .ok (.arr [.num 1, .num 2, .num 3]) ∧
    decodeJsonPartial [0x7B, 0x22, 0x61, 0x22, 0x3A, 0x20, 0x31, 0x2C, 0x20,
        0x22, 0x62, 0x22, 0x3A]
      = .ok (.obj [("a", .num 1)]) ∧
    decodeJsonPartial [0x5B, 0x31, 0x2C, 0x2C, 0x32, 0x2C]
      = .ok (.arr [.num 1, .num 2]) ∧
    (∀ fuel acc bs, jstep true fuel (.arrP acc) bs ≠ .error .invalidJson) ∧
    (∀ fuel acc bs, jstep true fuel (.objP acc) bs ≠ .error .invalidJson) :=
  ⟨rfl, rfl, rfl, jstep_arrP_ne_invalidJson, jstep_objP_ne_invalidJson⟩

/-- The bytes of `{"__proto__"`. -/
def protoKeyBytes : List Nat :=
  [0x7B, 0x22, 0x5F, 0x5F, 0x70, 0x72, 0x6F, 0x74, 0x6F, 0x5F, 0x5F, 0x22]

/-- C6 counterexample: on the bytes of `{"__proto__":1}` the partial
variant does NOT fail — its recovery `catch` swallows the `Invalid JSON`
thrown for the `__proto__` key and returns the empty partial object,
silently dropping the key.  Only the strict decoder makes it fatal. -/
theorem json_c6_proto_partial_not_fatal_cex :
    decodeJsonPartial [0x7B, 0x22, 0x5F, 0x5F, 0x70, 0x72, 0x6F, 0x74, 0x6F,
        0x5F, 0x5F, 0x22, 0x3A, 0x31, 0x7D] = .ok (.obj []) ∧
    decodeJson [0x7B, 0x22, 0x5F, 0x5F, 0x70, 0x72, 0x6F, 0x74, 0x6F,
        0x5F, 0x5F, 0x22, 0x3A, 0x31, 0x7D] = .error .invalidJson :=
  ⟨rfl, rfl⟩

/-- C6 amended: for every input starting with an object whose first key is
`__proto__`, the strict decoder rejects the document with `Invalid JSON`
(a fatal error, whatever follows the key), while the partial variant
catches that same error and returns the partial object assembled so far —
the key is silently dropped, not fatal. -/
theorem json_c6_proto_guard (rest : List Nat) :
    decodeJson (protoKeyBytes ++ rest) = .error .invalidJson ∧
    decodeJsonPartial (protoKeyBytes ++ rest) = .ok (.obj []) :=
  ⟨rfl, rfl⟩

end Json

/-! ## CBOR shallow reader (`CborDecoder`, `src/src/bencode/README.md`)

`skipAny` and its family, `readHdr`, `findIndex` and `validate` are
translated from the source.  The `Reader` lives in an external package and
is modelled from the spec's §3.3 contract (reads past the end fail with
`UnexpectedEnd`); `readMinorLen`, from the absent `CborDecoderBase`, is
modelled from the spec's §4.4 sentence (0..23 literal, 24/25/26/27 =
1/2/4/8-byte length, 31 = indefinite sentinel −1).  The `u64` read is
modelled exactly (the source's `Number(u64)` loses precision only above
2^53, beyond any bounded buffer length). -/

namespace Cbor

inductive CborErr where
  | unexpectedMajor
  | unexpectedMinor
  | unexpectedBinChunkMajor
  | unexpectedBinChunkMinor
  | unexpectedStrChunkMajor
  | unexpectedStrChunkMinor
  | unexpectedObjBreak
  | invalidSize
  | keyNotFound
  | indexOutOfBounds
  | unexpectedEnd
  | outOfFuel
deriving DecidableEq

/-- Modelled from the spec: `Reader.u8`. -/
def ru8 : List Nat → Except CborErr (Nat × List Nat)
  | [] => .error .unexpectedEnd
  | b :: r => .ok (b, r)

/-- Modelled from the spec: `Reader.peak` (no advance). -/
def rPeak : List Nat → Except CborErr Nat
  | [] => .error .unexpectedEnd
  | b :: _ => .ok b

/-- Modelled from the spec: `Reader.skip(n)`. -/
def rSkip (n : Nat) (bs : List Nat) : Except CborErr (List Nat) :=
  if n ≤ bs.length then .ok (bs.drop n) else .error .unexpectedEnd

/-- Modelled from the spec: the `u8`/`u16`/`u32`/`u64` reads, big-endian. -/
def ruN (w : Nat) (bs : List Nat) : Except CborErr (Nat × List Nat) :=
  if w ≤ bs.length then .ok (Smile.beVal (bs.take w), bs.drop w)
  else .error .unexpectedEnd

/-- `CborDecoder.skipMinorLen`. -/
def skipMinorLen (minor : Nat) (bs : List Nat) : Except CborErr (Int × List Nat) :=
  if minor ≤ 23 then .ok ((minor : Int), bs)
  else if minor = 24 then do
    let (v, r) ← ruN 1 bs
    .ok ((v : Int), r)
  else if minor = 25 then do
    let (v, r) ← ruN 2 bs
    .ok ((v : Int), r)
  else if minor = 26 then do
    let (v, r) ← ruN 4 bs
    .ok ((v : Int), r)
  else if minor = 27 then do
    let (v, r) ← ruN 8 bs
    .ok ((v : Int), r)
  else if minor = 31 then .ok (-1, bs)
  else .error .unexpectedMinor

/-- Modelled from the spec: `CborDecoderBase.readMinorLen`, the same rule
(spec §4.4). -/
def readMinorLen (minor : Nat) (bs : List Nat) : Except CborErr (Int × List Nat) :=
  skipMinorLen minor bs

/-- The skip family's control modes: `skipAny`, `skipN` (`seq`), `skipBin`
/ `skipStr` on a known minor, and the four indefinite-chunk loops. -/
inductive SkipMode where
  | any
  | seq (k : Nat)
  | bin (minor : Nat)
  | str (minor : Nat)
  | binChunks
  | strChunks
  | arrItems
  | objItems
deriving DecidableEq

/-- `skipAny` / `skipAnyRaw` / `skipN` / `skipUNint` / `skipBin` /
`skipStr` / `skipArr` / `skipObj` / `skipTag` / `skipTkn` and the chunk
loops, merged over a mode tag so the recursion is structural in the
fuel. -/
def cskipStep : Nat → SkipMode → List Nat → Except CborErr (List Nat)
  | 0, _, _ => .error .outOfFuel
  | fuel + 1, .any, bs => do
    let (octet, r) ← ru8 bs
    let major := octet / 32
    let minor := octet % 32
    if major = 0 ∨ major = 1 then
      if minor ≤ 23 then .ok r
      else if minor = 24 then rSkip 1 r
      else if minor = 25 then rSkip 2 r
      else if minor = 26 then rSkip 4 r
      else if minor = 27 then rSkip 8 r
      else .error .unexpectedMinor
    else if major = 2 then cskipStep fuel (.bin minor) r
    else if major = 3 then cskipStep fuel (.str minor) r
    else if major = 4 then do
      let (len, r1) ← skipMinorLen minor r
      if 0 ≤ len then cskipStep fuel (.seq len.toNat) r1
      else cskipStep fuel .arrItems r1
    else if major = 5 then do
      let (len, r1) ← readMinorLen minor r
      if 0 ≤ len then cskipStep fuel (.seq (len.toNat * 2)) r1
      else cskipStep fuel .objItems r1
    else if major = 6 then do
      let (len, r1) ← skipMinorLen minor r
      if len < 0 then .error .unexpectedMinor
      else cskipStep fuel .any r1
    else if major = 7 then
      if minor = 24 then rSkip 1 r
      else if minor = 25 then rSkip 2 r
      else if minor = 26 then rSkip 4 r
      else if minor = 27 then rSkip 8 r
      else if minor ≤ 23 then .ok r
      else .error .unexpectedMinor
    else .ok r
  | _fuel + 1, .seq 0, bs => .ok bs
  | fuel + 1, .seq (k + 1), bs => do
    let r ← cskipStep fuel .any bs
    cskipStep fuel (.seq k) r
  | fuel + 1, .bin minor, bs => do
    let (len, r1) ← skipMinorLen minor bs
    if 0 ≤ len then rSkip len.toNat r1
    else cskipStep fuel .binChunks r1
  | fuel + 1, .str minor, bs => do
    let (len, r1) ← skipMinorLen minor bs
    if 0 ≤ len then rSkip len.toNat r1
    else cskipStep fuel .strChunks r1
  | fuel + 1, .binChunks, bs => do
    let b ← rPeak bs
    if b = 0xFF then .ok (bs.drop 1)
    else do
      let (octet, r) ← ru8 bs
      if octet / 32 ≠ 2 then .error .unexpectedBinChunkMajor
      else if 27 < octet % 32 then .error .unexpectedBinChunkMinor
      else do
        let r2 ← cskipStep fuel (.bin (octet % 32)) r
        cskipStep fuel .binChunks r2
  | fuel + 1, .strChunks, bs => do
    let b ← rPeak bs
    if b = 0xFF then .ok (bs.drop 1)
    else do
      let (octet, r) ← ru8 bs
      if octet / 32 ≠ 3 then .error .unexpectedStrChunkMajor
      else if 27 < octet % 32 then .error .unexpectedStrChunkMinor
      else do
        let r2 ← cskipStep fuel (.str (octet % 32)) r
        cskipStep fuel .strChunks r2
  | fuel + 1, .arrItems, bs => do
    let b ← rPeak bs
    if b = 0xFF then .ok (bs.drop 1)
    else do
      let r ← cskipStep fuel .any bs
      cskipStep fuel .arrItems r
  | fuel + 1, .objItems, bs => do
    let b ← rPeak bs
    if b = 0xFF then .ok (bs.drop 1)
    else do
      let r1 ← cskipStep fuel .any bs
      let b2 ← rPeak r1
      if b2 = 0xFF then .error .unexpectedObjBreak
      else do
        let r2 ← cskipStep fuel .any r1
        cskipStep fuel .objItems r2

/-- `CborDecoder.readHdr(expectedMajor)`. -/
def readHdrE (expectedMajor : Nat) (bs : List Nat) : Except CborErr (Int × List Nat) := do
  let (octet, r) ← ru8 bs
  if octet / 32 ≠ expectedMajor then .error .unexpectedMajor
  else
    let minor := octet % 32
    if minor < 24 then .ok ((minor : Int), r)
    else if minor = 24 then do
      let (v, r1) ← ruN 1 r
      .ok ((v : Int), r1)
    else if minor = 25 then do
      let (v, r1) ← ruN 2 r
      .ok ((v : Int), r1)
    else if minor = 26 then do
      let (v, r1) ← ruN 4 r
      .ok ((v : Int), r1)
    else if minor = 27 then do
      let (v, r1) ← ruN 8 r
      .ok ((v : Int), r1)
    else if minor = 31 then .ok (-1, r)
    else .error .unexpectedMinor

/-- `CborDecoder.findIndex`: array header, bounds check against the raw
header value (−1 for indefinite arrays), then `skipN(index)`.  The result
is the bytes at the cursor. -/
def findIndexF (fuel : Nat) (index : Nat) (bs : List Nat) :
    Except CborErr (List Nat) := do
  let (size, r1) ← readHdrE 4 bs
  if size ≤ (index : Int) then .error .indexOutOfBounds
  else cskipStep fuel (.seq index) r1

/-- `CborDecoder.validate(value, offset, size)`: skip one value starting
at `offset` and require the consumed span to equal `size`. -/
def validateF (fuel : Nat) (value : List Nat) (offset size : Nat) :
    Except CborErr Unit := do
  let rest ← cskipStep fuel .any (value.drop offset)
  if (value.drop offset).length - rest.length = size then .ok ()
  else .error .invalidSize

end Cbor

namespace Cbor

theorem except_bind_err {ε α β : Type} (e : ε) (f : α → Except ε β) :
    (Except.error e >>= f : Except ε β) = .error e := rfl

/-- Payload width of wide minors 24/25/26/27: 1/2/4/8 bytes. -/
def minorWidth (minor : Nat) : Nat := 2 ^ (minor - 24)

/-- One complete value of the CBOR wire grammar (spec §4.4), indexed by
the skipper's mode so sequences and indefinite chunk runs are part of the
same relation: `CborWf m bs r` says that from `bs`, the syntactic unit of
mode `m` is present and ends exactly where `r` begins.  A head byte is
(3-bit major, 5-bit minor); minors 24..27 carry a 1/2/4/8-byte big-endian
argument; minor 31 is the indefinite form closed by the 0xFF break; bytes
and strings chunk with same-major definite chunks; maps hold 2n entry
values and reject a break between a key and its value.  The `other`
constructor covers head bytes above 255, which cannot occur in a byte
buffer: the source's dispatch switch falls through for them (the model's
theorems about real buffers exclude them by a `< 256` bound). -/
inductive CborWf : SkipMode → List Nat → List Nat → Prop where
  | atomSmall (octet : Nat) (r : List Nat)
      (hmaj : octet / 32 = 0 ∨ octet / 32 = 1) (hmin : octet % 32 ≤ 23) :
      CborWf .any (octet :: r) r
  | atomWide (octet : Nat) (bs1 r : List Nat)
      (hmaj : octet / 32 = 0 ∨ octet / 32 = 1)
      (hmin : 24 ≤ octet % 32 ∧ octet % 32 ≤ 27)
      (h : rSkip (minorWidth (octet % 32)) bs1 = .ok r) :
      CborWf .any (octet :: bs1) r
  | binAny (octet : Nat) (bs1 r : List Nat) (hmaj : octet / 32 = 2)
      (h : CborWf (.bin (octet % 32)) bs1 r) : CborWf .any (octet :: bs1) r
  | strAny (octet : Nat) (bs1 r : List Nat) (hmaj : octet / 32 = 3)
      (h : CborWf (.str (octet % 32)) bs1 r) : CborWf .any (octet :: bs1) r
  | arrDef (octet : Nat) (bs1 r1 r : List Nat) (len : Int) (hmaj : octet / 32 = 4)
      (harg : skipMinorLen (octet % 32) bs1 = .ok (len, r1)) (hlen : 0 ≤ len)
      (h : CborWf (.seq len.toNat) r1 r) : CborWf .any (octet :: bs1) r
  | arrIndef (octet : Nat) (bs1 r1 r : List Nat) (len : Int) (hmaj : octet / 32 = 4)
      (harg : skipMinorLen (octet % 32) bs1 = .ok (len, r1)) (hlen : len < 0)
      (h : CborWf .arrItems r1 r) : CborWf .any (octet :: bs1) r
  | mapDef (octet : Nat) (bs1 r1 r : List Nat) (len : Int) (hmaj : octet / 32 = 5)
      (harg : readMinorLen (octet % 32) bs1 = .ok (len, r1)) (hlen : 0 ≤ len)
      (h : CborWf (.seq (len.toNat * 2)) r1 r) : CborWf .any (octet :: bs1) r
  | mapIndef (octet : Nat) (bs1 r1 r : List Nat) (len : Int) (hmaj : octet / 32 = 5)
      (harg : readMinorLen (octet % 32) bs1 = .ok (len, r1)) (hlen : len < 0)
      (h : CborWf .objItems r1 r) : CborWf .any (octet :: bs1) r
  | tagged (octet : Nat) (bs1 r1 r : List Nat) (len : Int) (hmaj : octet / 32 = 6)
      (harg : skipMinorLen (octet % 32) bs1 = .ok (len, r1)) (hlen : 0 ≤ len)
      (h : CborWf .any r1 r) : CborWf .any (octet :: bs1) r
  | tknSmall (octet : Nat) (r : List Nat) (hmaj : octet / 32 = 7)
      (hmin : octet % 32 ≤ 23) : CborWf .any (octet :: r) r
  | tknWide (octet : Nat) (bs1 r : List Nat) (hmaj : octet / 32 = 7)
      (hmin : 24 ≤ octet % 32 ∧ octet % 32 ≤ 27)
      (h : rSkip (minorWidth (octet % 32)) bs1 = .ok r) :
      CborWf .any (octet :: bs1) r
  | other (octet : Nat) (r : List Nat) (hmaj : 8 ≤ octet / 32) :
      CborWf .any (octet :: r) r
  | seqZero (bs : List Nat) : CborWf (.seq 0) bs bs
  | seqSucc (k : Nat) (bs bs1 r : List Nat) (h1 : CborWf .any bs bs1)
      (h2 : CborWf (.seq k) bs1 r) : CborWf (.seq (k + 1)) bs r
  | binDef (minor : Nat) (bs r1 r : List Nat) (len : Int)
      (harg : skipMinorLen minor bs = .ok (len, r1)) (hlen : 0 ≤ len)
      (h : rSkip len.toNat r1 = .ok r) : CborWf (.bin minor) bs r
  | binIndef (minor : Nat) (bs r1 r : List Nat) (len : Int)
      (harg : skipMinorLen minor bs = .ok (len, r1)) (hlen : len < 0)
      (h : CborWf .binChunks r1 r) : CborWf (.bin minor) bs r
  | strDef (minor : Nat) (bs r1 r : List Nat) (len : Int)
      (harg : skipMinorLen minor bs = .ok (len, r1)) (hlen : 0 ≤ len)
      (h : rSkip len.toNat r1 = .ok r) : CborWf (.str minor) bs r
  | strIndef (minor : Nat) (bs r1 r : List Nat) (len : Int)
      (harg : skipMinorLen minor bs = .ok (len, r1)) (hlen : len < 0)
      (h : CborWf .strChunks r1 r) : CborWf (.str minor) bs r
  | binChBrk (r : List Nat) : CborWf .binChunks (0xFF :: r) r
  | binChCons (octet : Nat) (t r2 r : List Nat)
      (hne : octet ≠ 0xFF) (hmaj : octet / 32 = 2) (hmin : octet % 32 ≤ 27)
      (h1 : CborWf (.bin (octet % 32)) t r2) (h2 : CborWf .binChunks r2 r) :
      CborWf .binChunks (octet :: t) r
  | strChBrk (r : List Nat) : CborWf .strChunks (0xFF :: r) r
  | strChCons (octet : Nat) (t r2 r : List Nat)
      (hne : octet ≠ 0xFF) (hmaj : octet / 32 = 3) (hmin : octet % 32 ≤ 27)
      (h1 : CborWf (.str (octet % 32)) t r2) (h2 : CborWf .strChunks r2 r) :
      CborWf .strChunks (octet :: t) r
  | itemsBrk (r : List Nat) : CborWf .arrItems (0xFF :: r) r
  | itemsCons (b : Nat) (t bs1 r : List Nat) (hb : b ≠ 0xFF)
      (h1 : CborWf .any (b :: t) bs1) (h2 : CborWf .arrItems bs1 r) :
      CborWf .arrItems (b :: t) r
  | pairsBrk (r : List Nat) : CborWf .objItems (0xFF :: r) r
  | pairsCons (b : Nat) (t bs1 bs2 r : List Nat) (hb : b ≠ 0xFF)
      (hk : CborWf .any (b :: t) bs1) (hnb : bs1.head? ≠ some 0xFF)
      (hv : CborWf .any bs1 bs2) (h2 : CborWf .objItems bs2 r) :
      CborWf .objItems (b :: t) r

end Cbor

namespace Cbor

/-- Soundness: whenever the skipper returns normally, the bytes it stepped
over are a well-formed unit of the mode it ran in. -/
theorem cskipStep_sound : ∀ (fuel : Nat) (m : SkipMode) (bs r : List Nat),
    cskipStep fuel m bs = .ok r → CborWf m bs r := by
  intro fuel
  induction fuel with
  | zero =>
    intro m bs r h
    simp [cskipStep] at h
  | succ fuel ih =>
    intro m bs r h
    cases m with
    | any =>
      rcases bs with _ | ⟨octet, t⟩
      · rw [cskipStep] at h
        simp [ru8, except_bind_err] at h
      · rw [cskipStep] at h
        rw [show ru8 (octet :: t) = Except.ok (octet, t) from rfl,
          Smile.except_bind_ok] at h
        simp only at h
        by_cases h01 : octet / 32 = 0 ∨ octet / 32 = 1
        · rw [if_pos h01] at h
          by_cases hm : octet % 32 ≤ 23
          · rw [if_pos hm] at h
            cases h
            exact CborWf.atomSmall _ _ h01 hm
          · rw [if_neg hm] at h
            by_cases h24 : octet % 32 = 24
            · rw [if_pos h24] at h
              exact CborWf.atomWide _ _ _ h01 (by omega)
                (by simpa [minorWidth, h24] using h)
            · rw [if_neg h24] at h
              by_cases h25 : octet % 32 = 25
              · rw [if_pos h25] at h
                exact CborWf.atomWide _ _ _ h01 (by omega)
                  (by simpa [minorWidth, h25] using h)
              · rw [if_neg h25] at h
                by_cases h26 : octet % 32 = 26
                · rw [if_pos h26] at h
                  exact CborWf.atomWide _ _ _ h01 (by omega)
                    (by simpa [minorWidth, h26] using h)
                · rw [if_neg h26] at h
                  by_cases h27 : octet % 32 = 27
                  · rw [if_pos h27] at h
                    exact CborWf.atomWide _ _ _ h01 (by omega)
                      (by simpa [minorWidth, h27] using h)
                  · rw [if_neg h27] at h
                    simp at h
        · rw [if_neg h01] at h
          by_cases h2 : octet / 32 = 2
          · rw [if_pos h2] at h
            exact CborWf.binAny _ _ _ h2 (ih _ _ _ h)
          · rw [if_neg h2] at h
            by_cases h3 : octet / 32 = 3
            · rw [if_pos h3] at h
              exact CborWf.strAny _ _ _ h3 (ih _ _ _ h)
            · rw [if_neg h3] at h
              by_cases h4 : octet / 32 = 4
              · rw [if_pos h4] at h
                rcases harg : skipMinorLen (octet % 32) t with e | ⟨len, r1⟩ <;>
                  rw [harg] at h
                · rw [except_bind_err] at h
                  simp at h
                · rw [Smile.except_bind_ok] at h
                  simp only at h
                  by_cases hlen : 0 ≤ len
                  · rw [if_pos hlen] at h
                    exact CborWf.arrDef _ _ _ _ _ h4 harg hlen (ih _ _ _ h)
                  · rw [if_neg hlen] at h
                    exact CborWf.arrIndef _ _ _ _ _ h4 harg (by omega) (ih _ _ _ h)
              · rw [if_neg h4] at h
                by_cases h5 : octet / 32 = 5
                · rw [if_pos h5] at h
                  rcases harg : readMinorLen (octet % 32) t with e | ⟨len, r1⟩ <;>
                    rw [harg] at h
                  · rw [except_bind_err] at h
                    simp at h
                  · rw [Smile.except_bind_ok] at h
                    simp only at h
                    by_cases hlen : 0 ≤ len
                    · rw [if_pos hlen] at h
                      exact CborWf.mapDef _ _ _ _ _ h5 harg hlen (ih _ _ _ h)
                    · rw [if_neg hlen] at h
                      exact CborWf.mapIndef _ _ _ _ _ h5 harg (by omega) (ih _ _ _ h)
                · rw [if_neg h5] at h
                  by_cases h6 : octet / 32 = 6
                  · rw [if_pos h6] at h
                    rcases harg : skipMinorLen (octet % 32) t with e | ⟨len, r1⟩ <;>
                      rw [harg] at h
                    · rw [except_bind_err] at h
                      simp at h
                    · rw [Smile.except_bind_ok] at h
                      simp only at h
                      by_cases hlen : len < 0
                      · rw [if_pos hlen] at h
                        simp at h
                      · rw [if_neg hlen] at h
                        exact CborWf.tagged _ _ _ _ _ h6 harg (by omega) (ih _ _ _ h)
                  · rw [if_neg h6] at h
                    by_cases h7 : octet / 32 = 7
                    · rw [if_pos h7] at h
                      by_cases h24 : octet % 32 = 24
                      · rw [if_pos h24] at h
                        exact CborWf.tknWide _ _ _ h7 (by omega)
                          (by simpa [minorWidth, h24] using h)
                      · rw [if_neg h24] at h
                        by_cases h25 : octet % 32 = 25
                        · rw [if_pos h25] at h
                          exact CborWf.tknWide _ _ _ h7 (by omega)
                            (by simpa [minorWidth, h25] using h)
                        · rw [if_neg h25] at h
                          by_cases h26 : octet % 32 = 26
                          · rw [if_pos h26] at h
                            exact CborWf.tknWide _ _ _ h7 (by omega)
                              (by simpa [minorWidth, h26] using h)
                          · rw [if_neg h26] at h
                            by_cases h27 : octet % 32 = 27
                            · rw [if_pos h27] at h
                              exact CborWf.tknWide _ _ _ h7 (by omega)
                                (by simpa [minorWidth, h27] using h)
                            · rw [if_neg h27] at h
                              by_cases hm : octet % 32 ≤ 23
                              · rw [if_pos hm] at h
                                cases h
                                exact CborWf.tknSmall _ _ h7 hm
                              · rw [if_neg hm] at h
                                simp at h
                    · rw [if_neg h7] at h
                      cases h
                      exact CborWf.other _ _ (by omega)
    | seq k =>
      cases k with
      | zero =>
        rw [cskipStep] at h
        cases h
        exact CborWf.seqZero _
      | succ k =>
        rw [cskipStep] at h
        rcases h1 : cskipStep fuel .any bs with e | r1 <;> rw [h1] at h
        · rw [except_bind_err] at h
          simp at h
        · rw [Smile.except_bind_ok] at h
          exact CborWf.seqSucc _ _ _ _ (ih _ _ _ h1) (ih _ _ _ h)
    | bin minor =>
      rw [cskipStep] at h
      rcases harg : skipMinorLen minor bs with e | ⟨len, r1⟩ <;> rw [harg] at h
      · rw [except_bind_err] at h
        simp at h
      · rw [Smile.except_bind_ok] at h
        simp only at h
        by_cases hlen : 0 ≤ len
        · rw [if_pos hlen] at h
          exact CborWf.binDef _ _ _ _ _ harg hlen h
        · rw [if_neg hlen] at h
          exact CborWf.binIndef _ _ _ _ _ harg (by omega) (ih _ _ _ h)
    | str minor =>
      rw [cskipStep] at h
      rcases harg : skipMinorLen minor bs with e | ⟨len, r1⟩ <;> rw [harg] at h
      · rw [except_bind_err] at h
        simp at h
      · rw [Smile.except_bind_ok] at h
        simp only at h
        by_cases hlen : 0 ≤ len
        · rw [if_pos hlen] at h
          exact CborWf.strDef _ _ _ _ _ harg hlen h
        · rw [if_neg hlen] at h
          exact CborWf.strIndef _ _ _ _ _ harg (by omega) (ih _ _ _ h)
    | binChunks =>
      rcases bs with _ | ⟨b, t⟩
      · rw [cskipStep] at h
        simp [rPeak, except_bind_err] at h
      · rw [cskipStep] at h
        rw [show rPeak (b :: t) = Except.ok b from rfl, Smile.except_bind_ok] at h
        by_cases hff : b = 0xFF
        · rw [if_pos hff] at h
          cases h
          subst hff
          exact CborWf.binChBrk _
        · rw [if_neg hff] at h
          rw [show ru8 (b :: t) = Except.ok (b, t) from rfl, Smile.except_bind_ok] at h
          simp only at h
          by_cases hmaj : b / 32 ≠ 2
          · rw [if_pos hmaj] at h
            simp at h
          · rw [if_neg hmaj] at h
            by_cases hmin : 27 < b % 32
            · rw [if_pos hmin] at h
              simp at h
            · rw [if_neg hmin] at h
              rcases h1 : cskipStep fuel (.bin (b % 32)) t with e | r2 <;> rw [h1] at h
              · rw [except_bind_err] at h
                simp at h
              · rw [Smile.except_bind_ok] at h
                exact CborWf.binChCons _ _ _ _ hff (by omega) (by omega)
                  (ih _ _ _ h1) (ih _ _ _ h)
    | strChunks =>
      rcases bs with _ | ⟨b, t⟩
      · rw [cskipStep] at h
        simp [rPeak, except_bind_err] at h
      · rw [cskipStep] at h
        rw [show rPeak (b :: t) = Except.ok b from rfl, Smile.except_bind_ok] at h
        by_cases hff : b = 0xFF
        · rw [if_pos hff] at h
          cases h
          subst hff
          exact CborWf.strChBrk _
        · rw [if_neg hff] at h
          rw [show ru8 (b :: t) = Except.ok (b, t) from rfl, Smile.except_bind_ok] at h
          simp only at h
          by_cases hmaj : b / 32 ≠ 3
          · rw [if_pos hmaj] at h
            simp at h
          · rw [if_neg hmaj] at h
            by_cases hmin : 27 < b % 32
            · rw [if_pos hmin] at h
              simp at h
            · rw [if_neg hmin] at h
              rcases h1 : cskipStep fuel (.str (b % 32)) t with e | r2 <;> rw [h1] at h
              · rw [except_bind_err] at h
                simp at h
              · rw [Smile.except_bind_ok] at h
                exact CborWf.strChCons _ _ _ _ hff (by omega) (by omega)
                  (ih _ _ _ h1) (ih _ _ _ h)
    | arrItems =>
      rcases bs with _ | ⟨b, t⟩
      · rw [cskipStep] at h
        simp [rPeak, except_bind_err] at h
      · rw [cskipStep] at h
        rw [show rPeak (b :: t) = Except.ok b from rfl, Smile.except_bind_ok] at h
        by_cases hff : b = 0xFF
        · rw [if_pos hff] at h
          cases h
          subst hff
          exact CborWf.itemsBrk _
        · rw [if_neg hff] at h
          rcases h1 : cskipStep fuel .any (b :: t) with e | bs1 <;> rw [h1] at h
          · rw [except_bind_err] at h
            simp at h
          · rw [Smile.except_bind_ok] at h
            exact CborWf.itemsCons _ _ _ _ hff (ih _ _ _ h1) (ih _ _ _ h)
    | objItems =>
      rcases bs with _ | ⟨b, t⟩
      · rw [cskipStep] at h
        simp [rPeak, except_bind_err] at h
      · rw [cskipStep] at h
        rw [show rPeak (b :: t) = Except.ok b from rfl, Smile.except_bind_ok] at h
        by_cases hff : b = 0xFF
        · rw [if_pos hff] at h
          cases h
          subst hff
          exact CborWf.pairsBrk _
        · rw [if_neg hff] at h
          rcases h1 : cskipStep fuel .any (b :: t) with e | bs1 <;> rw [h1] at h
          · rw [except_bind_err] at h
            simp at h
          · rw [Smile.except_bind_ok] at h
            rcases bs1 with _ | ⟨b2, t2⟩
            · rw [show rPeak ([] : List Nat) = Except.error CborErr.unexpectedEnd
                from rfl, except_bind_err] at h
              simp at h
            · rw [show rPeak (b2 :: t2) = Except.ok b2 from rfl,
                Smile.except_bind_ok] at h
              by_cases hb2 : b2 = 0xFF
              · rw [if_pos hb2] at h
                simp at h
              · rw [if_neg hb2] at h
                rcases h2 : cskipStep fuel .any (b2 :: t2) with e | bs2 <;> rw [h2] at h
                · rw [except_bind_err] at h
                  simp at h
                · rw [Smile.except_bind_ok] at h
                  exact CborWf.pairsCons _ _ _ _ _ hff (ih _ _ _ h1)
                    (by simp [hb2]) (ih _ _ _ h2) (ih _ _ _ h)

end Cbor

namespace Cbor

/-- Every well-formed `.any` unit starts with a byte. -/
theorem cborWf_any_cons {bs r : List Nat} (h : CborWf .any bs r) :
    ∃ b t, bs = b :: t := by
  cases h <;> exact ⟨_, _, rfl⟩

/-- Completeness: a well-formed unit is skipped successfully at every
sufficiently large fuel. -/
theorem cskipStep_complete {m : SkipMode} {bs r : List Nat} (hwf : CborWf m bs r) :
    ∃ N, ∀ fuel, N ≤ fuel → cskipStep fuel m bs = .ok r := by
  induction hwf with
  | atomSmall octet r hmaj hmin =>
    refine ⟨1, fun fuel hf => ?_⟩
    obtain ⟨f, rfl⟩ : ∃ f, fuel = f + 1 := ⟨fuel - 1, by omega⟩
    rw [cskipStep, show ru8 (octet :: r) = Except.ok (octet, r) from rfl,
      Smile.except_bind_ok]
    simp only
    rw [if_pos hmaj, if_pos hmin]
  | atomWide octet bs1 r hmaj hmin h =>
    refine ⟨1, fun fuel hf => ?_⟩
    obtain ⟨f, rfl⟩ : ∃ f, fuel = f + 1 := ⟨fuel - 1, by omega⟩
    rw [cskipStep, show ru8 (octet :: bs1) = Except.ok (octet, bs1) from rfl,
      Smile.except_bind_ok]
    simp only
    rw [if_pos hmaj, if_neg (by omega : ¬ octet % 32 ≤ 23)]
    rcases (by omega : octet % 32 = 24 ∨ octet % 32 = 25 ∨ octet % 32 = 26 ∨
      octet % 32 = 27) with h24 | h25 | h26 | h27
    · rw [if_pos h24]
      simpa [minorWidth, h24] using h
    · rw [if_neg (by omega), if_pos h25]
      simpa [minorWidth, h25] using h
    · rw [if_neg (by omega), if_neg (by omega), if_pos h26]
      simpa [minorWidth, h26] using h
    · rw [if_neg (by omega), if_neg (by omega), if_neg (by omega), if_pos h27]
      simpa [minorWidth, h27] using h
  | binAny octet bs1 r hmaj h ih =>
    obtain ⟨N1, hN1⟩ := ih
    refine ⟨N1 + 1, fun fuel hf => ?_⟩
    obtain ⟨f, rfl⟩ : ∃ f, fuel = f + 1 := ⟨fuel - 1, by omega⟩
    rw [cskipStep, show ru8 (octet :: bs1) = Except.ok (octet, bs1) from rfl,
      Smile.except_bind_ok]
    simp only
    rw [if_neg (by omega), if_pos hmaj]
    exact hN1 f (by omega)
  | strAny octet bs1 r hmaj h ih =>
    obtain ⟨N1, hN1⟩ := ih
    refine ⟨N1 + 1, fun fuel hf => ?_⟩
    obtain ⟨f, rfl⟩ : ∃ f, fuel = f + 1 := ⟨fuel - 1, by omega⟩
    rw [cskipStep, show ru8 (octet :: bs1) = Except.ok (octet, bs1) from rfl,
      Smile.except_bind_ok]
    simp only
    rw [if_neg (by omega), if_neg (by omega), if_pos hmaj]
    exact hN1 f (by omega)
  | arrDef octet bs1 r1 r len hmaj harg hlen h ih =>
    obtain ⟨N1, hN1⟩ := ih
    refine ⟨N1 + 1, fun fuel hf => ?_⟩
    obtain ⟨f, rfl⟩ : ∃ f, fuel = f + 1 := ⟨fuel - 1, by omega⟩
    rw [cskipStep, show ru8 (octet :: bs1) = Except.ok (octet, bs1) from rfl,
      Smile.except_bind_ok]
    simp only
    rw [if_neg (by omega), if_neg (by omega), if_neg (by omega), if_pos hmaj,
      harg, Smile.except_bind_ok]
    simp only
    rw [if_pos hlen]
    exact hN1 f (by omega)
  | arrIndef octet bs1 r1 r len hmaj harg hlen h ih =>
    obtain ⟨N1, hN1⟩ := ih
    refine ⟨N1 + 1, fun fuel hf => ?_⟩
    obtain ⟨f, rfl⟩ : ∃ f, fuel = f + 1 := ⟨fuel - 1, by omega⟩
    rw [cskipStep, show ru8 (octet :: bs1) = Except.ok (octet, bs1) from rfl,
      Smile.except_bind_ok]
    simp only
    rw [if_neg (by omega), if_neg (by omega), if_neg (by omega), if_pos hmaj,
      harg, Smile.except_bind_ok]
    simp only
    rw [if_neg (by omega : ¬ (0 : Int) ≤ len)]
    exact hN1 f (by omega)
  | mapDef octet bs1 r1 r len hmaj harg hlen h ih =>
    obtain ⟨N1, hN1⟩ := ih
    refine ⟨N1 + 1, fun fuel hf => ?_⟩
    obtain ⟨f, rfl⟩ : ∃ f, fuel = f + 1 := ⟨fuel - 1, by omega⟩
    rw [cskipStep, show ru8 (octet :: bs1) = Except.ok (octet, bs1) from rfl,
      Smile.except_bind_ok]
    simp only
    rw [if_neg (by omega), if_neg (by omega), if_neg (by omega),
      if_neg (by omega), if_pos hmaj, harg, Smile.except_bind_ok]
    simp only
    rw [if_pos hlen]
    exact hN1 f (by omega)
  | mapIndef octet bs1 r1 r len hmaj harg hlen h ih =>
    obtain ⟨N1, hN1⟩ := ih
    refine ⟨N1 + 1, fun fuel hf => ?_⟩
    obtain ⟨f, rfl⟩ : ∃ f, fuel = f + 1 := ⟨fuel - 1, by omega⟩
    rw [cskipStep, show ru8 (octet :: bs1) = Except.ok (octet, bs1) from rfl,
      Smile.except_bind_ok]
    simp only
    rw [if_neg (by omega), if_neg (by omega), if_neg (by omega),
      if_neg (by omega), if_pos hmaj, harg, Smile.except_bind_ok]
    simp only
    rw [if_neg (by omega : ¬ (0 : Int) ≤ len)]
    exact hN1 f (by omega)
  | tagged octet bs1 r1 r len hmaj harg hlen h ih =>
    obtain ⟨N1, hN1⟩ := ih
    refine ⟨N1 + 1, fun fuel hf => ?_⟩
    obtain ⟨f, rfl⟩ : ∃ f, fuel = f + 1 := ⟨fuel - 1, by omega⟩
    rw [cskipStep, show ru8 (octet :: bs1) = Except.ok (octet, bs1) from rfl,
      Smile.except_bind_ok]
    simp only
    rw [if_neg (by omega : ¬ (octet / 32 = 0 ∨ octet / 32 = 1)),
      if_neg (by omega : ¬ octet / 32 = 2),
      if_neg (by omega : ¬ octet / 32 = 3),
      if_neg (by omega : ¬ octet / 32 = 4),
      if_neg (by omega : ¬ octet / 32 = 5), if_pos hmaj, harg,
      Smile.except_bind_ok]
    simp only
    rw [if_neg (by omega : ¬ len < 0)]
    exact hN1 f (by omega)
  | tknSmall octet r hmaj hmin =>
    refine ⟨1, fun fuel hf => ?_⟩
    obtain ⟨f, rfl⟩ : ∃ f, fuel = f + 1 := ⟨fuel - 1, by omega⟩
    rw [cskipStep, show ru8 (octet :: r) = Except.ok (octet, r) from rfl,
      Smile.except_bind_ok]
    simp only
    rw [if_neg (by omega : ¬ (octet / 32 = 0 ∨ octet / 32 = 1)),
      if_neg (by omega : ¬ octet / 32 = 2),
      if_neg (by omega : ¬ octet / 32 = 3),
      if_neg (by omega : ¬ octet / 32 = 4),
      if_neg (by omega : ¬ octet / 32 = 5),
      if_neg (by omega : ¬ octet / 32 = 6), if_pos hmaj,
      if_neg (by omega : ¬ octet % 32 = 24),
      if_neg (by omega : ¬ octet % 32 = 25),
      if_neg (by omega : ¬ octet % 32 = 26),
      if_neg (by omega : ¬ octet % 32 = 27), if_pos hmin]
  | tknWide octet bs1 r hmaj hmin h =>
    refine ⟨1, fun fuel hf => ?_⟩
    obtain ⟨f, rfl⟩ : ∃ f, fuel = f + 1 := ⟨fuel - 1, by omega⟩
    rw [cskipStep, show ru8 (octet :: bs1) = Except.ok (octet, bs1) from rfl,
      Smile.except_bind_ok]
    simp only
    rw [if_neg (by omega : ¬ (octet / 32 = 0 ∨ octet / 32 = 1)),
      if_neg (by omega : ¬ octet / 32 = 2),
      if_neg (by omega : ¬ octet / 32 = 3),
      if_neg (by omega : ¬ octet / 32 = 4),
      if_neg (by omega : ¬ octet / 32 = 5),
      if_neg (by omega : ¬ octet / 32 = 6), if_pos hmaj]
    rcases (by omega : octet % 32 = 24 ∨ octet % 32 = 25 ∨ octet % 32 = 26 ∨
      octet % 32 = 27) with h24 | h25 | h26 | h27
    · rw [if_pos h24]
      simpa [minorWidth, h24] using h
    · rw [if_neg (by omega), if_pos h25]
      simpa [minorWidth, h25] using h
    · rw [if_neg (by omega), if_neg (by omega), if_pos h26]
      simpa [minorWidth, h26] using h
    · rw [if_neg (by omega), if_neg (by omega), if_neg (by omega), if_pos h27]
      simpa [minorWidth, h27] using h
  | other octet r hmaj =>
    refine ⟨1, fun fuel hf => ?_⟩
    obtain ⟨f, rfl⟩ : ∃ f, fuel = f + 1 := ⟨fuel - 1, by omega⟩
    rw [cskipStep, show ru8 (octet :: r) = Except.ok (octet, r) from rfl,
      Smile.except_bind_ok]
    simp only
    rw [if_neg (by omega : ¬ (octet / 32 = 0 ∨ octet / 32 = 1)),
      if_neg (by omega : ¬ octet / 32 = 2),
      if_neg (by omega : ¬ octet / 32 = 3),
      if_neg (by omega : ¬ octet / 32 = 4),
      if_neg (by omega : ¬ octet / 32 = 5),
      if_neg (by omega : ¬ octet / 32 = 6),
      if_neg (by omega : ¬ octet / 32 = 7)]
  | seqZero bs =>
    refine ⟨1, fun fuel hf => ?_⟩
    obtain ⟨f, rfl⟩ : ∃ f, fuel = f + 1 := ⟨fuel - 1, by omega⟩
    rw [cskipStep]
  | seqSucc k bs bs1 r h1 h2 ih1 ih2 =>
    obtain ⟨N1, hN1⟩ := ih1
    obtain ⟨N2, hN2⟩ := ih2
    refine ⟨N1 + N2 + 1, fun fuel hf => ?_⟩
    obtain ⟨f, rfl⟩ : ∃ f, fuel = f + 1 := ⟨fuel - 1, by omega⟩
    rw [cskipStep, hN1 f (by omega), Smile.except_bind_ok]
    exact hN2 f (by omega)
  | binDef minor bs r1 r len harg hlen h =>
    refine ⟨1, fun fuel hf => ?_⟩
    obtain ⟨f, rfl⟩ : ∃ f, fuel = f + 1 := ⟨fuel - 1, by omega⟩
    rw [cskipStep, harg, Smile.except_bind_ok]
    simp only
    rw [if_pos hlen]
    exact h
  | binIndef minor bs r1 r len harg hlen h ih =>
    obtain ⟨N1, hN1⟩ := ih
    refine ⟨N1 + 1, fun fuel hf => ?_⟩
    obtain ⟨f, rfl⟩ : ∃ f, fuel = f + 1 := ⟨fuel - 1, by omega⟩
    rw [cskipStep, harg, Smile.except_bind_ok]
    simp only
    rw [if_neg (by omega : ¬ (0 : Int) ≤ len)]
    exact hN1 f (by omega)
  | strDef minor bs r1 r len harg hlen h =>
    refine ⟨1, fun fuel hf => ?_⟩
    obtain ⟨f, rfl⟩ : ∃ f, fuel = f + 1 := ⟨fuel - 1, by omega⟩
    rw [cskipStep, harg, Smile.except_bind_ok]
    simp only
    rw [if_pos hlen]
    exact h
  | strIndef minor bs r1 r len harg hlen h ih =>
    obtain ⟨N1, hN1⟩ := ih
    refine ⟨N1 + 1, fun fuel hf => ?_⟩
    obtain ⟨f, rfl⟩ : ∃ f, fuel = f + 1 := ⟨fuel - 1, by omega⟩
    rw [cskipStep, harg, Smile.except_bind_ok]
    simp only
    rw [if_neg (by omega : ¬ (0 : Int) ≤ len)]
    exact hN1 f (by omega)
  | binChBrk r =>
    refine ⟨1, fun fuel hf => ?_⟩
    obtain ⟨f, rfl⟩ : ∃ f, fuel = f + 1 := ⟨fuel - 1, by omega⟩
    rw [cskipStep, show rPeak (0xFF :: r) = Except.ok 0xFF from rfl,
      Smile.except_bind_ok]
    rw [if_pos rfl]
    rfl
  | binChCons octet t r2 r hne hmaj hmin h1 h2 ih1 ih2 =>
    obtain ⟨N1, hN1⟩ := ih1
    obtain ⟨N2, hN2⟩ := ih2
    refine ⟨N1 + N2 + 1, fun fuel hf => ?_⟩
    obtain ⟨f, rfl⟩ : ∃ f, fuel = f + 1 := ⟨fuel - 1, by omega⟩
    rw [cskipStep, show rPeak (octet :: t) = Except.ok octet from rfl,
      Smile.except_bind_ok]
    rw [if_neg hne, show ru8 (octet :: t) = Except.ok (octet, t) from rfl,
      Smile.except_bind_ok]
    simp only
    rw [if_neg (by omega : ¬ octet / 32 ≠ 2), if_neg (by omega : ¬ 27 < octet % 32),
      hN1 f (by omega), Smile.except_bind_ok]
    exact hN2 f (by omega)
  | strChBrk r =>
    refine ⟨1, fun fuel hf => ?_⟩
    obtain ⟨f, rfl⟩ : ∃ f, fuel = f + 1 := ⟨fuel - 1, by omega⟩
    rw [cskipStep, show rPeak (0xFF :: r) = Except.ok 0xFF from rfl,
      Smile.except_bind_ok]
    rw [if_pos rfl]
    rfl
  | strChCons octet t r2 r hne hmaj hmin h1 h2 ih1 ih2 =>
    obtain ⟨N1, hN1⟩ := ih1
    obtain ⟨N2, hN2⟩ := ih2
    refine ⟨N1 + N2 + 1, fun fuel hf => ?_⟩
    obtain ⟨f, rfl⟩ : ∃ f, fuel = f + 1 := ⟨fuel - 1, by omega⟩
    rw [cskipStep, show rPeak (octet :: t) = Except.ok octet from rfl,
      Smile.except_bind_ok]
    rw [if_neg hne, show ru8 (octet :: t) = Except.ok (octet, t) from rfl,
      Smile.except_bind_ok]
    simp only
    rw [if_neg (by omega : ¬ octet / 32 ≠ 3), if_neg (by omega : ¬ 27 < octet % 32),
      hN1 f (by omega), Smile.except_bind_ok]
    exact hN2 f (by omega)
  | itemsBrk r =>
    refine ⟨1, fun fuel hf => ?_⟩
    obtain ⟨f, rfl⟩ : ∃ f, fuel = f + 1 := ⟨fuel - 1, by omega⟩
    rw [cskipStep, show rPeak (0xFF :: r) = Except.ok 0xFF from rfl,
      Smile.except_bind_ok]
    rw [if_pos rfl]
    rfl
  | itemsCons b t bs1 r hb h1 h2 ih1 ih2 =>
    obtain ⟨N1, hN1⟩ := ih1
    obtain ⟨N2, hN2⟩ := ih2
    refine ⟨N1 + N2 + 1, fun fuel hf => ?_⟩
    obtain ⟨f, rfl⟩ : ∃ f, fuel = f + 1 := ⟨fuel - 1, by omega⟩
    rw [cskipStep, show rPeak (b :: t) = Except.ok b from rfl,
      Smile.except_bind_ok]
    rw [if_neg hb, hN1 f (by omega), Smile.except_bind_ok]
    exact hN2 f (by omega)
  | pairsBrk r =>
    refine ⟨1, fun fuel hf => ?_⟩
    obtain ⟨f, rfl⟩ : ∃ f, fuel = f + 1 := ⟨fuel - 1, by omega⟩
    rw [cskipStep, show rPeak (0xFF :: r) = Except.ok 0xFF from rfl,
      Smile.except_bind_ok]
    rw [if_pos rfl]
    rfl
  | pairsCons b t bs1 bs2 r hb hk hnb hv h2 ihk ihv ih2 =>
    obtain ⟨N1, hN1⟩ := ihk
    obtain ⟨N2, hN2⟩ := ihv
    obtain ⟨N3, hN3⟩ := ih2
    obtain ⟨b2, t2, rfl⟩ := cborWf_any_cons hv
    refine ⟨N1 + N2 + N3 + 1, fun fuel hf => ?_⟩
    obtain ⟨f, rfl⟩ : ∃ f, fuel = f + 1 := ⟨fuel - 1, by omega⟩
    rw [cskipStep, show rPeak (b :: t) = Except.ok b from rfl,
      Smile.except_bind_ok]
    rw [if_neg hb, hN1 f (by omega), Smile.except_bind_ok]
    rw [show rPeak (b2 :: t2) = Except.ok b2 from rfl, Smile.except_bind_ok]
    rw [if_neg (by simpa using hnb), hN2 f (by omega), Smile.except_bind_ok]
    exact hN3 f (by omega)

end Cbor

namespace Cbor

/-- C7: `validate(value, offset, size)` returns normally exactly when the
bytes at `offset` form one complete well-formed CBOR value whose encoding
spans exactly `size` bytes (first conjunct, with the fuel of the shallow
embedding existentially quantified); and whenever the skipper accepts a
value whose span differs from `size`, `validate` fails with `InvalidSize`
(second conjunct).  A decode error of the skipper propagates, which is the
`→` direction of the equivalence: on ill-formed bytes no fuel makes
`validate` return normally. -/
theorem cbor_c7_validate_exact (value : List Nat) (offset size : Nat) :
    ((∃ fuel, validateF fuel value offset size = .ok ()) ↔
      (∃ rest, CborWf .any (value.drop offset) rest ∧
        (value.drop offset).length - rest.length = size)) ∧
    (∀ fuel rest, cskipStep fuel .any (value.drop offset) = .ok rest →
      (value.drop offset).length - rest.length ≠ size →
      validateF fuel value offset size = .error .invalidSize) := by
  constructor
  · constructor
    · rintro ⟨fuel, hv⟩
      unfold validateF at hv
      rcases hs : cskipStep fuel .any (value.drop offset) with e | rest <;>
        rw [hs] at hv
      · rw [except_bind_err] at hv
        simp at hv
      · rw [Smile.except_bind_ok] at hv
        by_cases hsize : (value.drop offset).length - rest.length = size
        · exact ⟨rest, cskipStep_sound _ _ _ _ hs, hsize⟩
        · rw [if_neg hsize] at hv
          simp at hv
    · rintro ⟨rest, hwf, hsize⟩
      obtain ⟨N, hN⟩ := cskipStep_complete hwf
      refine ⟨N, ?_⟩
      unfold validateF
      rw [hN N le_rfl, Smile.except_bind_ok]
      rw [if_pos hsize]
  · intro fuel rest hs hne
    unfold validateF
    rw [hs, Smile.except_bind_ok]
    rw [if_neg hne]

/-- C4 counterexample: the indefinite-length array `[1]` (bytes
`9F 01 FF`) is a value the decoder itself accepts — `validate` passes on
it, exactly as it does on the definite encoding `81 01` of the same array
— yet `findIndex(0)` succeeds only on the definite form and throws
`IndexOutOfBounds` on the indefinite one, although index 0 is in range:
`readHdr` returns the sentinel −1 for indefinite lengths and
`index >= size` is then true for every index. -/
theorem cbor_c4_findIndex_indefinite_cex :
    validateF 20 [0x9F, 0x01, 0xFF] 0 3 = .ok () ∧
    validateF 20 [0x81, 0x01] 0 2 = .ok () ∧
    findIndexF 20 0 [0x81, 0x01] = .ok [0x01] ∧
    findIndexF 20 0 [0x9F, 0x01, 0xFF] = .error .indexOutOfBounds :=
  ⟨rfl, rfl, rfl, rfl⟩

/-- C4 amended: `findIndex` compares the index against the RAW header
value.  For a definite-length array header this matches the claim: it
fails with `IndexOutOfBounds` exactly when `index ≥ size`, and otherwise
calls `skipAny()` exactly `index` times, leaving the cursor at the start
of the `index`-th element (the bytes after any well-formed run of `index`
values, conjuncts two and three).  For an indefinite-length array the
header value is the sentinel −1, `size ≤ index` always holds, and the
call always fails — the original claim's "including indefinite-length
arrays" is false. -/
theorem cbor_c4_findIndex_definite (bs r1 : List Nat) (index : Nat) (size : Int)
    (hhdr : readHdrE 4 bs = .ok (size, r1)) :
    (size ≤ (index : Int) → ∀ fuel, findIndexF fuel index bs = .error .indexOutOfBounds) ∧
    ((index : Int) < size →
      (∀ r2, CborWf (.seq index) r1 r2 → ∃ fuel, findIndexF fuel index bs = .ok r2) ∧
      (∀ fuel r2, findIndexF fuel index bs = .ok r2 → CborWf (.seq index) r1 r2)) := by
  constructor
  · intro hge fuel
    unfold findIndexF
    rw [hhdr, Smile.except_bind_ok]
    simp only
    rw [if_pos hge]
  · intro hlt
    constructor
    · intro r2 hwf
      obtain ⟨N, hN⟩ := cskipStep_complete hwf
      refine ⟨N, ?_⟩
      unfold findIndexF
      rw [hhdr, Smile.except_bind_ok]
      simp only
      rw [if_neg (by omega)]
      exact hN N le_rfl
    · intro fuel r2 hok
      unfold findIndexF at hok
      rw [hhdr, Smile.except_bind_ok] at hok
      simp only at hok
      rw [if_neg (by omega)] at hok
      exact cskipStep_sound _ _ _ _ hok

/-- Witness for C4's amended theorem on the definite array `[1, 2]`
(bytes `82 01 02`): index 1 lands after the first element, index 3 is out
of bounds. -/
theorem cbor_c4_findIndex_definite_witness :
    readHdrE 4 [0x82, 0x01, 0x02] = .ok (2, [0x01, 0x02]) ∧
    (∃ fuel, findIndexF fuel 1 [0x82, 0x01, 0x02] = .ok [0x02]) ∧
    (∀ fuel, findIndexF fuel 3 [0x82, 0x01, 0x02] = .error .indexOutOfBounds) :=
  ⟨rfl,
    ((cbor_c4_findIndex_definite [0x82, 0x01, 0x02] [0x01, 0x02] 1 2 rfl).2
      (by decide)).1 [0x02]
      (CborWf.seqSucc 0 [0x01, 0x02] [0x02] [0x02]
        (CborWf.atomSmall 0x01 [0x02] (Or.inl (by decide)) (by decide))
        (CborWf.seqZero [0x02])),
    fun fuel =>
      (cbor_c4_findIndex_definite [0x82, 0x01, 0x02] [0x01, 0x02] 3 2 rfl).1
        (by decide) fuel⟩

end Cbor
